import Mathlib

/-!
Shallow embedding of the rs-pathtracing renderer core (vector algebra,
ray/hit records, shape intersections, BVH traversal, Perlin noise, the
integrator, textures, camera orbit control and rejection sampling),
translated from the Rust sources.

Modelling conventions:
* `f64` scalars are modelled by `ℝ`; decimal literals are read exactly.
* Interval bounds `min_t`/`max_t` are modelled by `EReal`, since the code
  passes `f64::INFINITY` for `max_t`.
* The slab test (`AABB::ray_hit`, `Cube::ray_intersect`) performs IEEE
  division that can produce `±inf` and `NaN`; these intermediates are
  modelled by `Option EReal` where `none` plays the role of NaN.
  Rust's `f64::min`/`f64::max` ignore a NaN argument, `<`/`<=` on NaN are
  false; `x / 0` follows the sign of `x` and `0 / 0` is NaN (the sign of
  an IEEE `-0.0` denominator is not representable in `ℝ` and is modelled
  as `+0`).
* Trait objects (`Box<dyn Material>`) are modelled by integer identifiers.
-/

noncomputable section

open Classical

/-- Componentwise 3-vector of real scalars, embedding `Vector3d` from
`src/algebra/mod.rs`. -/
structure Vector3d where
  x : ℝ
  y : ℝ
  z : ℝ
deriving DecidableEq

/-- Componentwise addition (`impl Add for Vector3d`). -/
def Vector3d.add (a b : Vector3d) : Vector3d := ⟨a.x + b.x, a.y + b.y, a.z + b.z⟩

/-- Componentwise subtraction (`impl Sub for Vector3d`). -/
def Vector3d.sub (a b : Vector3d) : Vector3d := ⟨a.x - b.x, a.y - b.y, a.z - b.z⟩

/-- Componentwise negation (`impl Neg for Vector3d`). -/
def Vector3d.neg (a : Vector3d) : Vector3d := ⟨-a.x, -a.y, -a.z⟩

/-- Dot product; the source overloads `*` on two vectors. -/
def Vector3d.dot (a b : Vector3d) : ℝ := a.x * b.x + a.y * b.y + a.z * b.z

/-- Scalar multiple; the source overloads `*` between `f64` and `Vector3d`. -/
def Vector3d.smul (a : Vector3d) (r : ℝ) : Vector3d := ⟨r * a.x, r * a.y, r * a.z⟩

/-- Componentwise product (`Vector3d::product`). -/
def Vector3d.product (a b : Vector3d) : Vector3d := ⟨a.x * b.x, a.y * b.y, a.z * b.z⟩

/-- Division by a scalar (`impl Div<f64> for Vector3d`). -/
def Vector3d.divScalar (a : Vector3d) (r : ℝ) : Vector3d := ⟨a.x / r, a.y / r, a.z / r⟩

/-- Componentwise absolute value used by `Cube::ray_intersect` (`p.abs()`). -/
def Vector3d.vabs (a : Vector3d) : Vector3d := ⟨|a.x|, |a.y|, |a.z|⟩

/-- Cross product (`Vector3d::cross`). -/
def Vector3d.cross (a b : Vector3d) : Vector3d :=
  ⟨a.y * b.z - a.z * b.y, a.z * b.x - a.x * b.z, a.x * b.y - a.y * b.x⟩

/-- Squared length (`Vector3d::squared_length`, i.e. `self * self`). -/
def Vector3d.squared_length (a : Vector3d) : ℝ := a.dot a

/-- Length (`Vector3d::length`, i.e. `sqrt (self * self)`). -/
def Vector3d.length (a : Vector3d) : ℝ := Real.sqrt a.squared_length

/-- Normalization (`Vector3d::normalize`, i.e. `self / self.length()`). -/
def Vector3d.normalize (a : Vector3d) : Vector3d := a.divScalar a.length

/-- Componentwise real minimum (`Vector3d::min`); used on finite box corners. -/
def Vector3d.vmin (a b : Vector3d) : Vector3d := ⟨min a.x b.x, min a.y b.y, min a.z b.z⟩

/-- Componentwise real maximum (`Vector3d::max`). -/
def Vector3d.vmax (a b : Vector3d) : Vector3d := ⟨max a.x b.x, max a.y b.y, max a.z b.z⟩

/-- Largest component (`Vector3d::max_component`, `x.max(y).max(z)`). -/
def Vector3d.max_component (a : Vector3d) : ℝ := max (max a.x a.y) a.z

/-- Smallest component (`Vector3d::min_component`). -/
def Vector3d.min_component (a : Vector3d) : ℝ := min (min a.x a.y) a.z

/-- The tolerance `1e-15` of `approx_equal` in `src/algebra/mod.rs`. -/
def epsApprox : ℝ := 1 / 10 ^ 15

/-- Embeds `approx_equal(a, b)`: `(a - b).abs() < 1e-15`. -/
def approx_equal (a b : ℝ) : Prop := |a - b| < epsApprox

/-!  IEEE-flavoured scalar layer for the slab test: `Option EReal`, with
`none` standing for NaN. -/

/-- An `f64` value that may be `±inf` (`EReal`) or NaN (`none`). -/
def FP : Type := Option EReal

/-- IEEE division of two finite reals as used by `Vector3d::divide` inside
the slab test: a nonzero numerator over zero gives a signed infinity, `0/0`
gives NaN. -/
def fdiv (n d : ℝ) : FP :=
  if d = 0 then
    (if n = 0 then none else if n < 0 then some ⊥ else some ⊤)
  else some ((n / d : ℝ) : EReal)

/-- Rust's `f64::min`: returns the other operand when one is NaN. -/
def fmin : FP → FP → FP
  | none, b => b
  | some a, none => some a
  | some a, some b => some (min a b)

/-- Rust's `f64::max`: returns the other operand when one is NaN. -/
def fmax : FP → FP → FP
  | none, b => b
  | some a, none => some a
  | some a, some b => some (max a b)

/-- Rust's `<=` on `f64`: false when either operand is NaN. -/
def fle : FP → FP → Prop
  | some a, some b => a ≤ b
  | _, _ => False

/-- Rust's `>` on `f64` (`a > b`): false when either operand is NaN. -/
def fgt : FP → FP → Prop
  | some a, some b => b < a
  | _, _ => False

/-- Extracts the real value of a finite `FP` quantity; infinite or NaN
values yield a junk `0` (every use is guarded by comparisons that exclude
those cases). -/
def fpToReal : FP → ℝ
  | some e => e.toReal
  | none => 0

/-- Row-major 4×4 affine matrix (`Transform` in `src/algebra/transform.rs`);
field `mRC` is row `R`, column `C`. -/
structure Transform where
  m00 : ℝ
  m01 : ℝ
  m02 : ℝ
  m03 : ℝ
  m10 : ℝ
  m11 : ℝ
  m12 : ℝ
  m13 : ℝ
  m20 : ℝ
  m21 : ℝ
  m22 : ℝ
  m23 : ℝ
  m30 : ℝ
  m31 : ℝ
  m32 : ℝ
  m33 : ℝ

/-- Embeds `Transform::transform_point` (homogeneous point, w = 1). -/
def Transform.transformPoint (t : Transform) (p : Vector3d) : Vector3d :=
  ⟨p.x * t.m00 + p.y * t.m01 + p.z * t.m02 + t.m03,
   p.x * t.m10 + p.y * t.m11 + p.z * t.m12 + t.m13,
   p.x * t.m20 + p.y * t.m21 + p.z * t.m22 + t.m23⟩

/-- Embeds `Transform::transform_vector` (w = 0). -/
def Transform.transformVector (t : Transform) (v : Vector3d) : Vector3d :=
  ⟨v.x * t.m00 + v.y * t.m01 + v.z * t.m02,
   v.x * t.m10 + v.y * t.m11 + v.z * t.m12,
   v.x * t.m20 + v.y * t.m21 + v.z * t.m22⟩

/-- Embeds `Transform::transform_normal` (multiplication by the transpose,
applied to the stored inverse to get the inverse-transpose action). -/
def Transform.transformNormal (t : Transform) (n : Vector3d) : Vector3d :=
  ⟨n.x * t.m00 + n.y * t.m10 + n.z * t.m20,
   n.x * t.m01 + n.y * t.m11 + n.z * t.m21,
   n.x * t.m02 + n.y * t.m12 + n.z * t.m22⟩

/-- The identity matrix, i.e. `InversableTransform::new` with zero
translation and rotation and unit scale. -/
def Transform.id : Transform :=
  ⟨1, 0, 0, 0,
   0, 1, 0, 0,
   0, 0, 1, 0,
   0, 0, 0, 1⟩

/-- A direct/inverse matrix pair (`InversableTransform`); the redundant
`translate`/`rotate`/`scale` fields kept by the source for serialization
are omitted, only the matrices are consumed by the render pipeline. -/
structure InversableTransform where
  direct : Transform
  inverse : Transform

/-- The identity transform pair. -/
def InversableTransform.id : InversableTransform := ⟨Transform.id, Transform.id⟩

/-- A ray as stored: origin plus direction (`Ray` in `src/world/ray.rs`). -/
structure Ray where
  origin : Vector3d
  direction : Vector3d

/-- The public `Ray::new` constructor, which normalizes the direction. -/
def Ray.new (origin direction : Vector3d) : Ray := ⟨origin, direction.normalize⟩

/-- Embeds `InversableTransform::inverse_transform_ray`. -/
def InversableTransform.inverseTransformRay (t : InversableTransform) (r : Ray) : Ray :=
  ⟨t.inverse.transformPoint r.origin, t.inverse.transformVector r.direction⟩

/-- Hit record (`RayHit` in `src/world/ray.rs`); the material trait object
is modelled by an integer identifier. -/
structure RayHit where
  point : Vector3d
  normal : Vector3d
  distance : ℝ
  is_front_face : Prop
  material : ℕ
  u : ℝ
  v : ℝ

/-- Embeds `RayHit::new`: front-face flag from the sign of `normal · dir`,
normal stored normalized (not flipped). -/
def RayHit.new (point normal : Vector3d) (distance : ℝ) (material : ℕ) (ray : Ray)
    (u v : ℝ) : RayHit :=
  { point := point
    normal := normal.normalize
    distance := distance
    is_front_face := normal.dot ray.direction < 0
    material := material
    u := u
    v := v }

/-- Embeds `RayHit::set_normal`: recomputes the front-face flag from the
new normal and stores the normal flipped towards the ray when back-facing. -/
def RayHit.setNormal (h : RayHit) (normal : Vector3d) (ray : Ray) : RayHit :=
  { h with
    normal := (if normal.dot ray.direction < 0 then normal else normal.neg).normalize
    is_front_face := normal.dot ray.direction < 0 }

/-- Embeds the default `Shape::ray_hit_transformed`: pulls the ray into
object space, delegates to the object-space intersection, then pushes the
hit point through the direct matrix and the normal through the
inverse-transpose, re-deriving front/back against the world-space ray. -/
def rayHitTransformed (tr : Option InversableTransform)
    (intersect : Ray → EReal → EReal → Option RayHit)
    (ray : Ray) (minT maxT : EReal) : Option RayHit :=
  match tr with
  | some t =>
    match intersect (t.inverseTransformRay ray) minT maxT with
    | none => none
    | some ret =>
      some (({ ret with point := t.direct.transformPoint ret.point }).setNormal
        (t.inverse.transformNormal ret.normal) ray)
  | none => intersect ray minT maxT

/-- Axis-aligned bounding box (`AABB` in `src/world/shapes/mod.rs`). -/
structure AABB where
  min_p : Vector3d
  max_p : Vector3d

/-- Embeds `AABB::ray_hit`, the slab test: componentwise IEEE division of
corner offsets by the ray direction, NaN-ignoring min/max folds, and a
final comparison that is false when either bound is NaN. -/
def AABB.rayHit (bb : AABB) (ray : Ray) (minT maxT : EReal) : Prop :=
  let tlx := fdiv (bb.min_p.x - ray.origin.x) ray.direction.x
  let tly := fdiv (bb.min_p.y - ray.origin.y) ray.direction.y
  let tlz := fdiv (bb.min_p.z - ray.origin.z) ray.direction.z
  let tux := fdiv (bb.max_p.x - ray.origin.x) ray.direction.x
  let tuy := fdiv (bb.max_p.y - ray.origin.y) ray.direction.y
  let tuz := fdiv (bb.max_p.z - ray.origin.z) ray.direction.z
  let tBoxMin := fmax (fmax (fmax (fmin tlx tux) (fmin tly tuy)) (fmin tlz tuz)) (some minT)
  let tBoxMax := fmin (fmin (fmin (fmax tlx tux) (fmax tly tuy)) (fmax tlz tuz)) (some maxT)
  fle tBoxMin tBoxMax

/-- Embeds `AABB::max`: the componentwise union of two boxes. -/
def AABB.unionBox (a b : AABB) : AABB :=
  ⟨a.min_p.vmin b.min_p, a.max_p.vmax b.max_p⟩

/-- The eight corners enumerated by `AABB::transform` (`self[i].x`,
`self[j].y`, `self[k].z` for `i, j, k ∈ {0, 1}` with `0 ↦ min_p`,
`1 ↦ max_p`). -/
def AABB.corners (bb : AABB) : List Vector3d :=
  [⟨bb.min_p.x, bb.min_p.y, bb.min_p.z⟩,
   ⟨bb.min_p.x, bb.min_p.y, bb.max_p.z⟩,
   ⟨bb.min_p.x, bb.max_p.y, bb.min_p.z⟩,
   ⟨bb.min_p.x, bb.max_p.y, bb.max_p.z⟩,
   ⟨bb.max_p.x, bb.min_p.y, bb.min_p.z⟩,
   ⟨bb.max_p.x, bb.min_p.y, bb.max_p.z⟩,
   ⟨bb.max_p.x, bb.max_p.y, bb.min_p.z⟩,
   ⟨bb.max_p.x, bb.max_p.y, bb.max_p.z⟩]

/-- Embeds `AABB::transform`: transforms the eight corners and folds their
componentwise extrema, starting from `±infinity` (modelled in `EReal` and
collapsed back to `ℝ` at the end, the fold over eight finite points being
finite). -/
def AABB.transform (bb : AABB) (tr : Transform) : AABB :=
  let pts := bb.corners.map tr.transformPoint
  ⟨⟨((pts.map (fun p => (p.x : EReal))).foldl min ⊤).toReal,
    ((pts.map (fun p => (p.y : EReal))).foldl min ⊤).toReal,
    ((pts.map (fun p => (p.z : EReal))).foldl min ⊤).toReal⟩,
   ⟨((pts.map (fun p => (p.x : EReal))).foldl max ⊥).toReal,
    ((pts.map (fun p => (p.y : EReal))).foldl max ⊥).toReal,
    ((pts.map (fun p => (p.z : EReal))).foldl max ⊥).toReal⟩⟩

/-- The `f64::atan2(y, x)` function, quadrant-correct arctangent. -/
def atan2 (y x : ℝ) : ℝ :=
  if 0 < x then Real.arctan (y / x)
  else if x < 0 then
    (if 0 ≤ y then Real.arctan (y / x) + Real.pi else Real.arctan (y / x) - Real.pi)
  else
    (if 0 < y then Real.pi / 2 else if y < 0 then -(Real.pi / 2) else 0)

/-- Principal complex square root, `num::Complex::sqrt`. -/
def csqrt (z : ℂ) : ℂ := z ^ (1 / 2 : ℂ)

/-- Principal complex cube root, `num::Complex::cbrt`. -/
def ccbrt (z : ℂ) : ℂ := z ^ (1 / 3 : ℂ)

/-- Embeds `solve_quantic_equation` from `src/algebra/equation.rs`
(quartic solver via the depressed quartic and Cardano's resolvent cubic);
the four roots are returned as a list. -/
def solveQuanticEquation (a b c d e : ℂ) : List ℂ :=
  let b := b / a
  let c := c / a
  let d := d / a
  let e := e / a
  let b2 := b * b
  let alpha := c - (3 / 8 : ℂ) * b2
  let beta := (b2 * b) / 8 - (b * c) / 2 + d
  let gamma := (-3 / 256 : ℂ) * b2 * b2 + b2 * c / 16 - b * d / 4 + e
  let alpha2 := alpha * alpha
  let t := -b / 4
  if approx_equal beta.re 0 ∧ approx_equal beta.im 0 then
    let r := csqrt (alpha2 - 4 * gamma)
    let r1 := csqrt ((-alpha + r) / 2)
    let r2 := csqrt ((-alpha - r) / 2)
    [t + r1, t - r1, t + r2, t - r2]
  else
    let p := -(alpha2 / 12 + gamma)
    let q := -alpha2 * alpha / 108 + alpha * gamma / 3 - beta * beta / 8
    let r := -q / 2 + csqrt (q * q / 4 + p * p * p / 27)
    let u := ccbrt r
    let y0 := (-5 / 6 : ℂ) * alpha + u
    let y := if approx_equal u.re 0 ∧ approx_equal u.im 0 then y0 - ccbrt q
             else y0 - p / (3 * u)
    let w := csqrt (alpha + 2 * y)
    let r1 := csqrt (-(3 * alpha + 2 * y + 2 * beta / w))
    let r2 := csqrt (-(3 * alpha + 2 * y - 2 * beta / w))
    [t + (w - r1) / 2, t + (w + r1) / 2, t + (-w - r2) / 2, t + (-w + r2) / 2]

/-- Unit sphere shape (`Sphere` in `src/world/shapes/mod.rs`). -/
structure Sphere where
  name : String
  transform : InversableTransform
  material : ℕ
  inverse_normal : Bool

/-- Embeds `Sphere::ray_intersect`: quadratic in `t`; a negative
discriminant is a miss, a zero discriminant returns `-half_b * a` with no
interval check, otherwise the smaller root is taken when it lies in the
closed interval `[min_t, max_t]` and the larger root is tried next. -/
def Sphere.rayIntersect (s : Sphere) (ray : Ray) (minT maxT : EReal) : Option RayHit :=
  let origin := ray.origin
  let dir := ray.direction
  let a := dir.dot dir
  let half_b := dir.dot origin
  let c := origin.dot origin - 1
  let d := half_b * half_b - a * c
  let mk : ℝ → Option RayHit := fun x =>
    let p := origin.add (dir.smul x)
    let normal := if s.inverse_normal then p.neg else p
    let theta := Real.arccos (-p.y)
    let phi := atan2 (-p.z) p.x + Real.pi
    some (RayHit.new p normal x s.material ray (phi / (2 * Real.pi)) (theta / Real.pi))
  if d < 0 then none
  else if d = 0 then mk (-half_b * a)
  else
    let x1 := (-half_b - Real.sqrt d) / a
    if ((x1 : EReal) < minT ∨ (x1 : EReal) > maxT) then
      let x2 := (-half_b + Real.sqrt d) / a
      if ((x2 : EReal) < minT ∨ (x2 : EReal) > maxT) then none else mk x2
    else mk x1

/-- Axis-aligned cube shape from `(-1,-1,-1)` to `(1,1,1)` (`Cube`). -/
structure Cube where
  min_p : Vector3d
  max_p : Vector3d
  name : String
  transform : InversableTransform
  material : ℕ

/-- The `Cube::new` constructor body (unit box corners). -/
def Cube.new (name : String) (transform : InversableTransform) (material : ℕ) : Cube :=
  ⟨⟨-1, -1, -1⟩, ⟨1, 1, 1⟩, name, transform, material⟩

/-- Embeds `Cube::ray_intersect`: the slab method with IEEE arithmetic;
the reported distance is `max(entry, min_t)`; the hit face is the axis of
the maximal absolute component of the hit point, and the `uv` pair is the
remaining two coordinates.  The unreachable `panic!` arm is modelled as
`none`. -/
def Cube.rayIntersect (cb : Cube) (ray : Ray) (minT maxT : EReal) : Option RayHit :=
  let tlx := fdiv (cb.min_p.x - ray.origin.x) ray.direction.x
  let tly := fdiv (cb.min_p.y - ray.origin.y) ray.direction.y
  let tlz := fdiv (cb.min_p.z - ray.origin.z) ray.direction.z
  let tux := fdiv (cb.max_p.x - ray.origin.x) ray.direction.x
  let tuy := fdiv (cb.max_p.y - ray.origin.y) ray.direction.y
  let tuz := fdiv (cb.max_p.z - ray.origin.z) ray.direction.z
  let tBoxMin := fmax (fmax (fmax (fmin tlx tux) (fmin tly tuy)) (fmin tlz tuz)) (some minT)
  let tBoxMax := fmin (fmin (fmin (fmax tlx tux) (fmax tly tuy)) (fmax tlz tuz)) (some maxT)
  if fgt tBoxMin tBoxMax ∨ fgt tBoxMin (some maxT) then none
  else
    let t := fpToReal tBoxMin
    let p := ray.origin.add (ray.direction.smul t)
    let pa := p.vabs
    let maxC := pa.max_component
    if maxC = pa.x then
      some (RayHit.new p ⟨p.x, 0, 0⟩ t cb.material ray p.y p.z)
    else if maxC = pa.y then
      some (RayHit.new p ⟨0, p.y, 0⟩ t cb.material ray p.x p.z)
    else if maxC = pa.z then
      some (RayHit.new p ⟨0, 0, p.z⟩ t cb.material ray p.x p.y)
    else none

/-- Axis-aligned rectangle in the `z = 0` plane (`Rectangle`). -/
structure Rectangle where
  x0 : ℝ
  y0 : ℝ
  x1 : ℝ
  y1 : ℝ
  transform : InversableTransform
  material : ℕ

/-- Embeds `Rectangle::ray_intersect`: `t = -o.z / d.z`, interval check,
in-bounds test, normalized `uv` offsets, constant normal `(0,0,1)`. -/
def Rectangle.rayIntersect (rc : Rectangle) (ray : Ray) (minT maxT : EReal) : Option RayHit :=
  let t := -ray.origin.z / ray.direction.z
  if ((t : EReal) < minT ∨ (t : EReal) > maxT) then none
  else
    let p := ray.origin.add (ray.direction.smul t)
    if (p.x < rc.x0 ∨ p.x > rc.x1 ∨ p.y < rc.y0 ∨ p.y > rc.y1) then none
    else
      let u := (p.x - rc.x0) / (rc.x1 - rc.x0)
      let v := (p.y - rc.y0) / (rc.y1 - rc.y0)
      some (RayHit.new p ⟨0, 0, 1⟩ t rc.material ray u v)

/-- Torus with major radius `radius` and tube radius `tube_radius`
(`Torus`). -/
structure Torus where
  name : String
  radius : ℝ
  tube_radius : ℝ
  transform : InversableTransform
  material : ℕ

/-- The loop body of the root fold in `Torus::ray_intersect`: a root
counts as real when its imaginary part is within `1e-15` of zero, and it
replaces the accumulator when its real part is smaller. -/
def torusRootStep (acc : EReal) (root : ℂ) : EReal :=
  if approx_equal root.im 0 ∧ (root.re : EReal) < acc then (root.re : EReal) else acc

/-- The fold over the quartic roots in `Torus::ray_intersect`: the
smallest real part among roots whose imaginary part is within `1e-15` of
zero, starting from `+infinity`. -/
def torusMinRoot (roots : List ℂ) : EReal :=
  roots.foldl torusRootStep ⊤

/-- The quartic-coefficient block of `Torus::ray_intersect` followed by
the `solve_quantic_equation` call, factored out of the intersection
routine so that statements can speak about the roots the torus computes
for a given ray. -/
def Torus.quarticRoots (tor : Torus) (ray : Ray) : List ℂ :=
  let origin := ray.origin
  let dir := ray.direction
  let t := 4 * tor.radius * tor.radius
  let g := t * (dir.x * dir.x + dir.y * dir.y)
  let h := 2 * t * (origin.x * dir.x + origin.y * dir.y)
  let i := t * (origin.x * origin.x + origin.y * origin.y)
  let j := dir.squared_length
  let k := 2 * (origin.dot dir)
  let l := origin.squared_length + tor.radius * tor.radius - tor.tube_radius * tor.tube_radius
  let a := j * j
  let b := 2 * j * k
  let c := 2 * j * l + k * k - g
  let d := 2 * k * l - h
  let e := l * l - i
  solveQuanticEquation (a : ℝ) (b : ℝ) (c : ℝ) (d : ℝ) (e : ℝ)

/-- Embeds `Torus::ray_intersect`: quartic coefficients from the ray and
the two radii, roots from `solve_quantic_equation`, then the globally
smallest real root is checked against the closed interval
`[min_t, max_t]` (`min_root.is_infinite()` is `min_root = ⊤` here, the
fold never produces `-infinity` from finite real parts). -/
def Torus.rayIntersect (tor : Torus) (ray : Ray) (minT maxT : EReal) : Option RayHit :=
  let origin := ray.origin
  let dir := ray.direction
  let roots := tor.quarticRoots ray
  let minRoot := torusMinRoot roots
  if (minRoot = ⊤ ∨ minRoot < minT ∨ minRoot > maxT) then none
  else
    let mr := minRoot.toReal
    let p := origin.add (dir.smul mr)
    let normal := p.sub ((Vector3d.mk p.x p.y 0).normalize.smul tor.radius)
    let theta := Real.arcsin (p.z / tor.tube_radius)
    let phi := Real.arccos (p.z / (tor.radius + tor.tube_radius * Real.cos theta)) + Real.pi
    some (RayHit.new p normal mr tor.material ray (phi / (2 * Real.pi)) (theta / Real.pi))

/-- The public `ray_hit` of a sphere: every primitive carries a transform,
so `ray_hit` is `ray_hit_transformed` with `get_transform = Some`. -/
def Sphere.rayHit (s : Sphere) (ray : Ray) (minT maxT : EReal) : Option RayHit :=
  rayHitTransformed (some s.transform) s.rayIntersect ray minT maxT

/-- The public `ray_hit` of a cube. -/
def Cube.rayHit (cb : Cube) (ray : Ray) (minT maxT : EReal) : Option RayHit :=
  rayHitTransformed (some cb.transform) cb.rayIntersect ray minT maxT

/-- The public `ray_hit` of a rectangle. -/
def Rectangle.rayHit (rc : Rectangle) (ray : Ray) (minT maxT : EReal) : Option RayHit :=
  rayHitTransformed (some rc.transform) rc.rayIntersect ray minT maxT

/-- The public `ray_hit` of a torus. -/
def Torus.rayHit (tor : Torus) (ray : Ray) (minT maxT : EReal) : Option RayHit :=
  rayHitTransformed (some tor.transform) tor.rayIntersect ray minT maxT

/-- The four analytic primitives, for statements that quantify over every
shape kind. -/
inductive ShapeCase where
  | sph : Sphere → ShapeCase
  | cub : Cube → ShapeCase
  | rect : Rectangle → ShapeCase
  | tor : Torus → ShapeCase

/-- Object-space `ray_intersect` dispatch over the four primitives. -/
def ShapeCase.rayIntersect : ShapeCase → Ray → EReal → EReal → Option RayHit
  | .sph s => s.rayIntersect
  | .cub c => c.rayIntersect
  | .rect r => r.rayIntersect
  | .tor t => t.rayIntersect

/-!  BVH index.  `Box<dyn Shape>` children are modelled by `DynShape`, a
record of the trait's two methods used by the BVH (`ray_hit` and
`get_bounding_box`); interior `BvhNode`s form a tree. -/

/-- A shape trait object as consumed by `BvhNode` and `ShapeCollection`:
its public `ray_hit` and its bounding box. -/
structure DynShape where
  rayHit : Ray → EReal → EReal → Option RayHit
  boundingBox : AABB

instance : Inhabited DynShape :=
  ⟨⟨fun _ _ _ => none, ⟨⟨0, 0, 0⟩, ⟨0, 0, 0⟩⟩⟩⟩

/-- A `BvhNode` tree: `node left right bounding_box`, where leaves are the
stored shape trait objects. -/
inductive BvhShape where
  | dyn : DynShape → BvhShape
  | node : BvhShape → Option BvhShape → AABB → BvhShape

/-- Embeds `Shape::get_bounding_box` on BVH children. -/
def BvhShape.boundingBox : BvhShape → AABB
  | .dyn s => s.boundingBox
  | .node _ _ bb => bb

/-- Embeds `BvhNode::ray_hit`/`ray_intersect`: the node box is slab-tested
first; on a pass the left child is queried, and when a right child exists
it is queried with `t_max` tightened to the left hit's distance, the right
result taking precedence (`.or(Some(hit))`). -/
def BvhShape.rayHit : BvhShape → Ray → EReal → EReal → Option RayHit
  | .dyn s, ray, minT, maxT => s.rayHit ray minT maxT
  | .node l (some rt) bb, ray, minT, maxT =>
    if bb.rayHit ray minT maxT then
      match l.rayHit ray minT maxT with
      | some hit => (rt.rayHit ray minT (hit.distance : EReal)).or (some hit)
      | none => rt.rayHit ray minT maxT
    else none
  | .node l none bb, ray, minT, maxT =>
    if bb.rayHit ray minT maxT then l.rayHit ray minT maxT else none

/-- The loop body of `ShapeCollection::ray_intersect`: each shape is
queried with `t_max` tightened to the best distance so far, and every
returned hit replaces the current best. -/
def scanGo (ray : Ray) (minT : EReal) :
    List DynShape → EReal → Option RayHit → Option RayHit
  | [], _, acc => acc
  | s :: ss, m, acc =>
    match s.rayHit ray minT m with
    | some hit => scanGo ray minT ss (hit.distance : EReal) (some hit)
    | none => scanGo ray minT ss m acc

/-- Embeds `ShapeCollection::ray_intersect`, the brute-force linear scan. -/
def ShapeCollection.rayIntersect (shapes : List DynShape) (ray : Ray)
    (minT maxT : EReal) : Option RayHit :=
  scanGo ray minT shapes maxT none

/-- Sort key of `BvhNode::new`: the chosen axis of each shape's
bounding-box minimum.  The source draws `rng.gen_range(0..2)`, so only the
x (0) and y (1) axes can be selected; the z comparator is dead code. -/
def bvhSort (axis : Fin 2) (ps : List DynShape) : List DynShape :=
  if axis = 0 then
    ps.mergeSort (fun a b => decide (a.boundingBox.min_p.x < b.boundingBox.min_p.x))
  else
    ps.mergeSort (fun a b => decide (a.boundingBox.min_p.y < b.boundingBox.min_p.y))

/-- The sorted list is a permutation of the input. -/
theorem bvhSort_perm (axis : Fin 2) (ps : List DynShape) : (bvhSort axis ps).Perm ps := by
  unfold bvhSort
  split <;> exact List.mergeSort_perm ps _

/-- Sorting preserves the length. -/
theorem bvhSort_length (axis : Fin 2) (ps : List DynShape) :
    (bvhSort axis ps).length = ps.length := by
  unfold bvhSort
  split <;> exact List.length_mergeSort ps

/-- Embeds `BvhNode::new`: sort by a randomly drawn axis (modelled by the
oracle `axisOf`, one draw per recursive build), then a single shape
becomes a one-child node, two shapes a two-child node, and otherwise the
sorted list is split at the midpoint and both halves are built
recursively; the node box is the union of the children's boxes.  The
source recurses forever on an empty list, modelled by a junk leaf. -/
def bvhBuild (axisOf : List DynShape → Fin 2) (ps : List DynShape) : BvhShape :=
  if h0 : (bvhSort (axisOf ps) ps).length = 0 then .dyn default
  else if h1 : (bvhSort (axisOf ps) ps).length = 1 then
    .node (.dyn (bvhSort (axisOf ps) ps).headI) none
      ((bvhSort (axisOf ps) ps).headI.boundingBox)
  else if h2 : (bvhSort (axisOf ps) ps).length = 2 then
    .node (.dyn (bvhSort (axisOf ps) ps).headI)
      (some (.dyn ((bvhSort (axisOf ps) ps).getD 1 default)))
      (((bvhSort (axisOf ps) ps).headI.boundingBox).unionBox
        (((bvhSort (axisOf ps) ps).getD 1 default).boundingBox))
  else
    let lh := bvhBuild axisOf ((bvhSort (axisOf ps) ps).take ((bvhSort (axisOf ps) ps).length / 2))
    let rh := bvhBuild axisOf ((bvhSort (axisOf ps) ps).drop ((bvhSort (axisOf ps) ps).length / 2))
    .node lh (some rh) (lh.boundingBox.unionBox rh.boundingBox)
termination_by ps.length
decreasing_by
  · simp only [List.length_take, bvhSort_length] at *
    omega
  · simp only [List.length_drop, bvhSort_length] at *
    omega

/-- The shapes stored at the leaves of a BVH tree, left to right. -/
def BvhShape.leaves : BvhShape → List DynShape
  | .dyn s => [s]
  | .node l (some r) _ => l.leaves ++ r.leaves
  | .node l none _ => l.leaves

/-- Box containment: `inner` lies inside `outer` componentwise. -/
def AABB.subBox (inner outer : AABB) : Prop :=
  outer.min_p.x ≤ inner.min_p.x ∧ outer.min_p.y ≤ inner.min_p.y ∧
  outer.min_p.z ≤ inner.min_p.z ∧ inner.max_p.x ≤ outer.max_p.x ∧
  inner.max_p.y ≤ outer.max_p.y ∧ inner.max_p.z ≤ outer.max_p.z

/-- The BVH structural invariant: every node's box contains its children's
boxes. -/
def BvhShape.wf : BvhShape → Prop
  | .dyn _ => True
  | .node l (some r) bb => l.boundingBox.subBox bb ∧ r.boundingBox.subBox bb ∧ l.wf ∧ r.wf
  | .node l none bb => l.boundingBox.subBox bb ∧ l.wf

/-!  Perlin noise (`src/algebra/noise.rs`). -/

/-- Xor of three byte-bounded indices, as used by the Perlin hash. -/
def xor3 (a b c : Fin 256) : Fin 256 :=
  ⟨(a.val ^^^ b.val) ^^^ c.val, by
    have h1 : a.val < 2 ^ 8 := a.isLt
    have h2 : b.val < 2 ^ 8 := b.isLt
    have h3 : c.val < 2 ^ 8 := c.isLt
    have h4 := Nat.xor_lt_two_pow (Nat.xor_lt_two_pow h1 h2) h3
    simpa using h4⟩

/-- The `(d + x) & 255` index: bitwise AND of an `i32` with `0xFF` is the
nonnegative remainder mod 256. -/
def idx255 (n : ℤ) : Fin 256 :=
  ⟨(n % 256).toNat, by
    have h1 : 0 ≤ n % 256 := Int.emod_nonneg n (by norm_num)
    have h2 : n % 256 < 256 := Int.emod_lt_of_pos n (by norm_num)
    omega⟩

/-- Perlin noise state: three shuffled permutation tables, 256 random
floats (unused by `noise`) and 256 random vectors, plus the cached
`{0,1}³` corner list built by `Perlin::new` via
`multi_cartesian_product`. -/
structure Perlin where
  perm_x : Fin 256 → Fin 256
  perm_y : Fin 256 → Fin 256
  perm_z : Fin 256 → Fin 256
  ranfloat : Fin 256 → ℝ
  ranvec : Fin 256 → Vector3d
  cartesian : List (ℤ × ℤ × ℤ)

/-- The corner list `(0..3).map(|_| 0..2).multi_cartesian_product()` in
its lexicographic order. -/
def cartesianCorners : List (ℤ × ℤ × ℤ) :=
  [(0, 0, 0), (0, 0, 1), (0, 1, 0), (0, 1, 1),
   (1, 0, 0), (1, 0, 1), (1, 1, 0), (1, 1, 1)]

/-- Embeds `Perlin::noise`: lattice cell via `floor`, Hermite-smoothed
weights, and the hashed corner gradients summed over the corner list. -/
def Perlin.noise (P : Perlin) (p : Vector3d) : ℝ :=
  let x : ℤ := ⌊p.x⌋
  let y : ℤ := ⌊p.y⌋
  let z : ℤ := ⌊p.z⌋
  let u := p.x - ⌊p.x⌋
  let v := p.y - ⌊p.y⌋
  let w := p.z - ⌊p.z⌋
  let u2 := u * u * (3 - 2 * u)
  let v2 := v * v * (3 - 2 * v)
  let w2 := w * w * (3 - 2 * w)
  (P.cartesian.map (fun d =>
    let c := P.ranvec (xor3 (P.perm_x (idx255 (d.1 + x)))
      (P.perm_y (idx255 (d.2.1 + y))) (P.perm_z (idx255 (d.2.2 + z))))
    let fi : ℝ := (d.1 : ℝ)
    let fj : ℝ := (d.2.1 : ℝ)
    let fk : ℝ := (d.2.2 : ℝ)
    (fi * u2 + ((1 - d.1 : ℤ) : ℝ) * (1 - u2)) *
      (fj * v2 + ((1 - d.2.1 : ℤ) : ℝ) * (1 - v2)) *
      (fk * w2 + ((1 - d.2.2 : ℤ) : ℝ) * (1 - w2)) *
      (c.dot ⟨u - fi, v - fj, w - fk⟩))).sum

/-- The `scan` loop of `Perlin::turb`: state `(weight, temp_p)` starts at
`(1, p)`; each octave contributes `weight * noise(p)` — the source samples
the outer `p`, while `temp_p` is doubled but never read — then the weight
halves. -/
def Perlin.turbGo (P : Perlin) (p temp_p : Vector3d) (weight : ℝ) : ℕ → ℝ
  | 0 => 0
  | n + 1 => weight * P.noise p + P.turbGo p (temp_p.smul 2) (weight * 0.5) n

/-- Embeds `Perlin::turb`: the octave sum followed by one absolute value
on the total. -/
def Perlin.turb (P : Perlin) (p : Vector3d) (depth : ℕ) : ℝ :=
  |P.turbGo p p 1 depth|

/-- Modelled from the spec: the claimed turbulence
`Σ_{i<depth} 0.5^i * |noise(2^i * p)|`, with the absolute value applied
per octave and the sample point doubled each octave. -/
def specTurb (P : Perlin) (p : Vector3d) (depth : ℕ) : ℝ :=
  ∑ i ∈ Finset.range depth, (0.5 : ℝ) ^ i * |P.noise (p.smul (2 ^ i))|

/-!  The integrator `ray_color` of `src/renderer/mod.rs`, which runs
against the flat `World` of `src/world.rs`. -/

/-- Hit record of the flat `src/world.rs` scene (`point`, `normal`,
`distance`; the borrowed shape and ray references are not consumed by the
integrator and are omitted). -/
structure OldRayHit where
  point : Vector3d
  normal : Vector3d
  distance : ℝ

/-- The flat `World`: a list of shapes, each modelled by its
`ray_intersect` method. -/
structure World where
  shapes : List (Ray → Option OldRayHit)

/-- Embeds `World::closest_hit`: `filter_map` over the shapes followed by
`min_by` with the `approx_equal`-tolerant comparator; Rust's `min_by`
keeps the first of equally minimal elements (the accumulator is replaced
only when the comparator answers `Greater`). -/
def World.closestHit (w : World) (ray : Ray) : Option OldRayHit :=
  match w.shapes.filterMap (fun s => s ray) with
  | [] => none
  | h :: t =>
    some (t.foldl
      (fun acc x =>
        if ¬ approx_equal acc.distance x.distance ∧ ¬ (acc.distance < x.distance)
        then x else acc) h)

/-- The background gradient of `ray_color`'s miss branch:
`(1-t)*white + t*(0.5,0.7,1.0)` with `t = 0.5*(dy+1)` of the normalized
direction. -/
def skyGradient (ray : Ray) : Vector3d :=
  let unitVec := ray.direction.normalize
  let t := 0.5 * (unitVec.y + 1)
  ((Vector3d.mk 1 1 1).smul (1 - t)).add ((Vector3d.mk 0.5 0.7 1).smul t)

/-- Embeds `ray_color` (`src/renderer/mod.rs`, lines 16–43): on a hit,
depth 0 yields black and otherwise the bounced ray's color is halved; on
a miss the sky gradient is returned at every depth.  The random unit
vector of each bounce is supplied by the stream `rnd`. -/
def rayColor (rnd : ℕ → Vector3d) (world : World) (ray : Ray) : ℕ → Vector3d
  | 0 =>
    match world.closestHit ray with
    | some _ => ⟨0, 0, 0⟩
    | none => skyGradient ray
  | d + 1 =>
    match world.closestHit ray with
    | some hit =>
      (rayColor (fun n => rnd (n + 1)) world
        ⟨hit.point, hit.normal.add (rnd 0)⟩ d).smul 0.5
    | none => skyGradient ray

/-!  `ImageTexture` (`src/world/texture.rs`). -/

/-- An RGBA image: dimensions plus a pixel table of four channels. -/
structure RtImage where
  width : ℕ
  height : ℕ
  pixel : ℕ → ℕ → Fin 4 → ℕ

/-- The image crate's `get_pixel`, which panics (here: `none`) when the
coordinates are outside the image. -/
def RtImage.getPixel (img : RtImage) (x y : ℕ) : Option (Fin 4 → ℕ) :=
  if x < img.width ∧ y < img.height then some (img.pixel x y) else none

/-- Rust's `f64::clamp`. -/
def fclamp (x lo hi : ℝ) : ℝ := if x < lo then lo else if x > hi then hi else x

/-- Embeds `ImageTexture::value`: clamp `u`, flip `v`, scale by the image
dimensions, truncate to integer coordinates (`as u32` on a nonnegative
finite value is `floor`) and look the pixel up; `none` models the
`get_pixel` panic. -/
def ImageTexture.value (img : RtImage) (u v : ℝ) : Option Vector3d :=
  let u' := fclamp u 0 1
  let v' := 1 - fclamp v 0 1
  let x := (⌊u' * (img.width : ℝ)⌋).toNat
  let y := (⌊v' * (img.height : ℝ)⌋).toNat
  match img.getPixel x y with
  | none => none
  | some p =>
    some ⟨(p 0 : ℝ) * (1 / 255), (p 1 : ℝ) * (1 / 255), (p 2 : ℝ) * (1 / 255)⟩

/-!  Camera and orbit control (`src/camera/mod.rs`). -/

/-- Camera state: position, direction, up, field of view, focal length and
the derived right vector (spelled `rigth` by the source). -/
structure Camera where
  position : Vector3d
  direction : Vector3d
  up : Vector3d
  fov : ℝ
  focal_length : ℝ
  rigth : Vector3d

/-- Embeds `Camera::set_up`: store the up-hint, then recompute the right
vector and re-orthonormalize up. -/
def Camera.setUp (cam : Camera) (up : Vector3d) : Camera :=
  let r := (cam.direction.cross up).normalize
  { cam with up := (r.cross cam.direction).normalize, rigth := r }

/-- Embeds `Camera::set_direction`: normalize the direction, recompute the
right vector against the current up, then re-orthonormalize up. -/
def Camera.setDirection (cam : Camera) (direction : Vector3d) : Camera :=
  let dir := direction.normalize
  let r := (dir.cross cam.up).normalize
  { cam with direction := dir, rigth := r, up := (r.cross dir).normalize }

/-- Embeds `Camera::set_position`. -/
def Camera.setPosition (cam : Camera) (position : Vector3d) : Camera :=
  { cam with position := position }

/-- Orbit-control state (`CameraOrbitControl`): spherical angles, the
orbited target (`object`) and the orbit distance. -/
structure OrbitControl where
  phi : ℝ
  theta : ℝ
  object : Vector3d
  distance : ℝ

/-- Embeds `CameraOrbitControl::lookat` as a pure camera update: the new
position mixes the target's components (`object.z` feeds the y coordinate
and `object.y` the z coordinate), the direction aims at the target, up is
reset to world-up, and the setters re-orthonormalize the basis. -/
def OrbitControl.lookat (oc : OrbitControl) (cam : Camera) : Camera :=
  let pos := Vector3d.mk
    (oc.object.x + oc.distance * Real.sin oc.theta * Real.cos oc.phi)
    (oc.object.z + oc.distance * Real.cos oc.theta)
    (oc.object.y + oc.distance * Real.sin oc.theta * Real.sin oc.phi)
  let dir := oc.object.sub pos
  ((cam.setUp ⟨0, 1, 0⟩).setDirection dir).setPosition pos

/-- Embeds the state update of `CameraOrbitControl::rotate_vertical`:
theta moves by `frac * π` and is clamped into `[0, π]` (lookat follows). -/
def OrbitControl.rotateVertical (oc : OrbitControl) (frac : ℝ) : OrbitControl :=
  let th := oc.theta + frac * Real.pi
  { oc with theta := if th > Real.pi then Real.pi else if th < 0 then 0 else th }

/-!  Rejection sampling (`Vector3d::random_in_sphere` etc.).  The stream
`draws` models the successive outputs of `Vector3d::random(min, max)`
(componentwise `gen_range(min..=max)`, both bounds inclusive); the loop
keeps drawing until the squared length passes the test, so its value is
only defined when some draw is accepted. -/

/-- A vector drawn by `Vector3d::random(lo, hi)` lies in `[lo, hi]³`. -/
def vecInRange (v : Vector3d) (lo hi : ℝ) : Prop :=
  lo ≤ v.x ∧ v.x ≤ hi ∧ lo ≤ v.y ∧ v.y ≤ hi ∧ lo ≤ v.z ∧ v.z ≤ hi

/-- Embeds the loop of `Vector3d::random_in_sphere(radius)`: the first
draw whose squared length is at most `radius²`. -/
def randomInSphere (radius : ℝ) (draws : ℕ → Vector3d)
    (h : ∃ n, (draws n).squared_length ≤ radius * radius) : Vector3d :=
  draws (Nat.find h)

/-- Embeds the loop of `Vector3d::random_in_unit_sphere`: the first draw
whose squared length is at most 1. -/
def randomInUnitSphere (draws : ℕ → Vector3d)
    (h : ∃ n, (draws n).squared_length ≤ 1) : Vector3d :=
  draws (Nat.find h)

/-- Embeds `Vector3d::random_unit`. -/
def randomUnit (draws : ℕ → Vector3d)
    (h : ∃ n, (draws n).squared_length ≤ 1) : Vector3d :=
  (randomInUnitSphere draws h).normalize

-- ===== helpers for interval bounds =====

theorem fmax_some_right (a : FP) (b : EReal) : ∃ e, fmax a (some b) = some e ∧ b ≤ e := by
  cases a with
  | none => exact ⟨b, rfl, le_refl b⟩
  | some x => exact ⟨max x b, rfl, le_max_right x b⟩

theorem ereal_toReal_bounds {minT maxT : ℝ} {e : EReal}
    (h1 : ((minT : ℝ) : EReal) ≤ e) (h2 : e ≤ ((maxT : ℝ) : EReal)) :
    minT ≤ e.toReal ∧ e.toReal ≤ maxT := by
  have hnt : e ≠ ⊤ := by rintro rfl; exact (by simp : ¬ ((⊤ : EReal) ≤ (maxT : EReal))) h2
  have hnb : e ≠ ⊥ := by rintro rfl; exact (by simp : ¬ ((minT : EReal) ≤ (⊥ : EReal))) h1
  have he : ((e.toReal : ℝ) : EReal) = e := EReal.coe_toReal hnt hnb
  refine ⟨EReal.coe_le_coe_iff.mp ?_, EReal.coe_le_coe_iff.mp ?_⟩
  · rw [he]; exact h1
  · rw [he]; exact h2

theorem cube_entry_bounds {minT maxT : ℝ} {A B : FP}
    (hno : ¬ (fgt (fmax A (some ((minT : ℝ) : EReal))) B ∨
      fgt (fmax A (some ((minT : ℝ) : EReal))) (some ((maxT : ℝ) : EReal)))) :
    minT ≤ fpToReal (fmax A (some ((minT : ℝ) : EReal))) ∧
      fpToReal (fmax A (some ((minT : ℝ) : EReal))) ≤ maxT := by
  push_neg at hno
  obtain ⟨e, he, hbe⟩ := fmax_some_right A ((minT : ℝ) : EReal)
  rw [he] at hno ⊢
  have h2 : ¬ (((maxT : ℝ) : EReal) < e) := hno.2
  have h2' : e ≤ ((maxT : ℝ) : EReal) := not_lt.mp h2
  have := ereal_toReal_bounds hbe h2'
  simpa [fpToReal] using this

-- ===== C1 =====

/-- Carve-outs under which the interval containment is provable in the
real-arithmetic embedding: the sphere must not take its zero-discriminant
tangent branch (it skips the bound checks), and the rectangle's ray must
not be parallel to the plane (IEEE would produce NaN/inf there). -/
def ShapeCase.okCond : ShapeCase → Ray → Prop
  | .sph _, ray =>
    ray.direction.dot ray.origin * ray.direction.dot ray.origin -
      ray.direction.dot ray.direction * (ray.origin.dot ray.origin - 1) ≠ 0
  | .rect _, ray => ray.direction.z ≠ 0
  | .cub _, _ => True
  | .tor _, _ => True

/-- C1: a hit reported by a shape's object-space intersection has its
distance inside the interval given by the bounds.  The source checks
`x < min_t || x > max_t`, so the interval is closed — `t = t_min` is
accepted — and the sphere's zero-discriminant tangent branch performs no
bound check at all, hence the carve-outs in `ShapeCase.okCond`. -/
theorem C1_closed_interval (sc : ShapeCase) (ray : Ray) (minT maxT : ℝ)
    (hlt : minT < maxT) (h : RayHit)
    (hh : sc.rayIntersect ray ((minT : ℝ) : EReal) ((maxT : ℝ) : EReal) = some h)
    (hok : sc.okCond ray) :
    minT ≤ h.distance ∧ h.distance ≤ maxT := by
  cases sc with
  | sph s =>
    simp only [ShapeCase.rayIntersect, Sphere.rayIntersect] at hh
    simp only [ShapeCase.okCond] at hok
    set hb := ray.direction.dot ray.origin with hhb
    set av := ray.direction.dot ray.direction with hav
    set oo := ray.origin.dot ray.origin with hoo
    set dv := hb * hb - av * (oo - 1) with hdv
    by_cases h1 : dv < 0
    · rw [if_pos h1] at hh; cases hh
    · rw [if_neg h1, if_neg hok] at hh
      by_cases hg1 : (((((-hb - Real.sqrt dv) / av : ℝ)) : EReal) < ((minT : ℝ) : EReal) ∨
          ((((-hb - Real.sqrt dv) / av : ℝ)) : EReal) > ((maxT : ℝ) : EReal))
      · rw [if_pos hg1] at hh
        by_cases hg2 : (((((-hb + Real.sqrt dv) / av : ℝ)) : EReal) < ((minT : ℝ) : EReal) ∨
            ((((-hb + Real.sqrt dv) / av : ℝ)) : EReal) > ((maxT : ℝ) : EReal))
        · rw [if_pos hg2] at hh; cases hh
        · rw [if_neg hg2] at hh
          obtain rfl : _ = h := Option.some.inj hh
          push_neg at hg2
          simp only [RayHit.new]
          exact ⟨EReal.coe_le_coe_iff.mp hg2.1, EReal.coe_le_coe_iff.mp hg2.2⟩
      · rw [if_neg hg1] at hh
        obtain rfl : _ = h := Option.some.inj hh
        push_neg at hg1
        simp only [RayHit.new]
        exact ⟨EReal.coe_le_coe_iff.mp hg1.1, EReal.coe_le_coe_iff.mp hg1.2⟩
  | cub c =>
    simp only [ShapeCase.rayIntersect, Cube.rayIntersect] at hh
    split_ifs at hh with h1 h2 h3 h4
    · obtain rfl : _ = h := Option.some.inj hh
      exact cube_entry_bounds h1
    · obtain rfl : _ = h := Option.some.inj hh
      exact cube_entry_bounds h1
    · obtain rfl : _ = h := Option.some.inj hh
      exact cube_entry_bounds h1
  | rect r =>
    simp only [ShapeCase.rayIntersect, Rectangle.rayIntersect] at hh
    split_ifs at hh with h1 h2
    obtain rfl : _ = h := Option.some.inj hh
    push_neg at h1
    simp only [RayHit.new]
    exact ⟨EReal.coe_le_coe_iff.mp h1.1, EReal.coe_le_coe_iff.mp h1.2⟩
  | tor t =>
    simp only [ShapeCase.rayIntersect, Torus.rayIntersect] at hh
    split_ifs at hh with h1
    obtain rfl : _ = h := Option.some.inj hh
    push_neg at h1
    simp only [RayHit.new]
    exact ereal_toReal_bounds h1.2.1 h1.2.2

def unitSphere : Sphere := ⟨"", InversableTransform.id, 0, false⟩
def rayC4 : Ray := ⟨⟨0, 0, -5⟩, ⟨0, 0, 1⟩⟩
def rayTangent : Ray := ⟨⟨1, 0, -5⟩, ⟨0, 0, 1⟩⟩

/-- C1 counterexample: the tangent ray (discriminant zero) against the
unit sphere returns distance 5 under bounds `[1/2, 1]`, far outside the
requested interval — the tangent branch skips the checks. -/
theorem C1_counterexample :
    ∃ h, ShapeCase.rayIntersect (.sph unitSphere) rayTangent (((1:ℝ)/2 : ℝ) : EReal)
        ((1 : ℝ) : EReal) = some h ∧ h.distance = 5 ∧ ¬ (h.distance ≤ 1) := by
  simp only [ShapeCase.rayIntersect, unitSphere, rayTangent, Sphere.rayIntersect,
    Vector3d.dot, Vector3d.add, Vector3d.smul, Vector3d.neg, RayHit.new, Vector3d.normalize,
    Vector3d.divScalar, Vector3d.length, Vector3d.squared_length]
  norm_num

/-- C1 witness: concrete instantiation of the interval theorem for the
unit sphere and a front-hitting ray with bounds `[1, 10]`. -/
theorem C1_witness :
    ∃ h, ShapeCase.rayIntersect (.sph unitSphere) rayC4 ((1 : ℝ) : EReal)
        ((10 : ℝ) : EReal) = some h ∧ ShapeCase.okCond (.sph unitSphere) rayC4 ∧
      1 ≤ h.distance ∧ h.distance ≤ 10 := by
  have hok : ShapeCase.okCond (.sph unitSphere) rayC4 := by
    simp only [ShapeCase.okCond, rayC4, Vector3d.dot]
    norm_num
  obtain ⟨h, hh⟩ : ∃ h, ShapeCase.rayIntersect (.sph unitSphere) rayC4 ((1 : ℝ) : EReal)
      ((10 : ℝ) : EReal) = some h := by
    simp only [ShapeCase.rayIntersect, unitSphere, rayC4, Sphere.rayIntersect,
      Vector3d.dot, Vector3d.add, Vector3d.smul, Vector3d.neg, RayHit.new, Vector3d.normalize,
      Vector3d.divScalar, Vector3d.length, Vector3d.squared_length]
    norm_num [Real.sqrt_one]
    rw [show ((1 : EReal)) = (((1 : ℝ)) : EReal) from EReal.coe_one.symm]
    simp only [EReal.coe_lt_coe_iff]
    norm_num
  exact ⟨h, hh, hok, C1_closed_interval _ _ 1 10 (by norm_num) h hh hok⟩

-- ===== C5: complex square-root evaluation =====

theorem csqrt_ofReal_nonneg (x : ℝ) (hx : 0 ≤ x) :
    csqrt (x : ℂ) = ((Real.sqrt x : ℝ) : ℂ) := by
  have h1 : ((1 / 2 : ℝ) : ℂ) = (1 / 2 : ℂ) := by push_cast; ring
  rw [csqrt, ← h1, ← Complex.ofReal_cpow hx (1 / 2), Real.sqrt_eq_rpow]

theorem csqrt_neg_ofReal (x : ℝ) (hx : 0 < x) :
    csqrt (-(x : ℂ)) = Complex.I * ((Real.sqrt x : ℝ) : ℂ) := by
  have hne : (-(x : ℂ)) ≠ 0 := by
    simpa using (by exact_mod_cast hx.ne' : (x : ℂ) ≠ 0)
  have hlog : Complex.log (-(x : ℂ)) = (Real.log x : ℂ) + Real.pi * Complex.I := by
    have hxr : (-(x : ℂ)) = ((-x : ℝ) : ℂ) := by push_cast; ring
    rw [hxr, Complex.log, Complex.abs_ofReal, Complex.arg_ofReal_of_neg (by linarith)]
    simp [abs_of_pos hx]
  rw [csqrt, Complex.cpow_def_of_ne_zero hne, hlog]
  have : ((Real.log x : ℂ) + Real.pi * Complex.I) * (1 / 2) =
      ((Real.log x / 2 : ℝ) : ℂ) + ((Real.pi / 2 : ℝ) : ℂ) * Complex.I := by
    push_cast; ring
  rw [this, Complex.exp_add, Complex.exp_mul_I]
  have hcos : Complex.cos ((Real.pi / 2 : ℝ) : ℂ) = 0 := by
    rw [← Complex.ofReal_cos, Real.cos_pi_div_two]; simp
  have hsin : Complex.sin ((Real.pi / 2 : ℝ) : ℂ) = 1 := by
    rw [← Complex.ofReal_sin, Real.sin_pi_div_two]; simp
  rw [hcos, hsin]
  have hexp : Complex.exp ((Real.log x / 2 : ℝ) : ℂ) = ((Real.sqrt x : ℝ) : ℂ) := by
    rw [← Complex.ofReal_exp]
    congr 1
    rw [Real.sqrt_eq_rpow, Real.rpow_def_of_pos hx]
    ring_nf
  rw [hexp]
  ring

theorem sqrt_sixteen : Real.sqrt 16 = 4 := by
  rw [show (16 : ℝ) = 4 ^ 2 by norm_num, Real.sqrt_sq (by norm_num : (0:ℝ) ≤ 4)]

theorem sqrt_quarter : Real.sqrt (1/4) = 1/2 := by
  rw [show (1/4 : ℝ) = (1/2) ^ 2 by norm_num, Real.sqrt_sq (by norm_num : (0:ℝ) ≤ 1/2)]

theorem csqrt_sixteen : csqrt (16 : ℂ) = 4 := by
  rw [show (16 : ℂ) = ((16 : ℝ) : ℂ) by norm_num,
    csqrt_ofReal_nonneg 16 (by norm_num), sqrt_sixteen]
  norm_num

theorem csqrt_quarter : csqrt ((1/4) : ℂ) = 1/2 := by
  rw [show ((1/4) : ℂ) = (((1:ℝ)/4 : ℝ) : ℂ) by norm_num,
    csqrt_ofReal_nonneg (1/4) (by norm_num), sqrt_quarter]
  norm_num

theorem csqrt_neg154 : csqrt ((-(15/4)) : ℂ) = Complex.I * ((Real.sqrt (15/4) : ℝ) : ℂ) := by
  rw [show ((-(15/4)) : ℂ) = -(((15/4 : ℝ)) : ℂ) by norm_num,
    csqrt_neg_ofReal (15/4) (by norm_num)]

theorem quanticRootsC5 :
    solveQuanticEquation 1 0 (7/2) 0 (-15/16) =
      [⟨1/2, 0⟩, ⟨-(1/2), 0⟩, ⟨0, Real.sqrt (15/4)⟩, ⟨0, -Real.sqrt (15/4)⟩] := by
  simp only [solveQuanticEquation]
  norm_num [approx_equal, epsApprox]
  rw [csqrt_sixteen,
    show ((-(7/2) + 4 : ℂ) / 2) = ((1/4) : ℂ) by norm_num,
    show ((-(7/2) - 4 : ℂ) / 2) = ((-(15/4)) : ℂ) by norm_num,
    csqrt_quarter, csqrt_neg154]
  refine ⟨?_, ?_, ?_, ?_⟩ <;> simp [Complex.ext_iff] <;> norm_num


-- fold lemmas

theorem foldl_torusRootStep_le (roots : List ℂ) :
    ∀ acc : EReal, roots.foldl torusRootStep acc ≤ acc := by
  induction roots with
  | nil => intro acc; simp
  | cons z rest ih =>
    intro acc
    simp only [List.foldl_cons]
    by_cases hc : approx_equal z.im 0 ∧ (z.re : EReal) < acc
    · calc rest.foldl torusRootStep (torusRootStep acc z) ≤ torusRootStep acc z := ih _
        _ ≤ acc := by rw [torusRootStep, if_pos hc]; exact le_of_lt hc.2
    · rw [torusRootStep, if_neg hc]; exact ih acc

theorem foldl_torusRootStep_le_mem (roots : List ℂ) :
    ∀ (acc : EReal) (z : ℂ), z ∈ roots → approx_equal z.im 0 →
      roots.foldl torusRootStep acc ≤ (z.re : EReal) := by
  induction roots with
  | nil => intro acc z hz; cases hz
  | cons w rest ih =>
    intro acc z hz hzr
    simp only [List.foldl_cons]
    rcases List.mem_cons.mp hz with rfl | hz2
    · by_cases hc : approx_equal z.im 0 ∧ (z.re : EReal) < acc
      · calc rest.foldl torusRootStep (torusRootStep acc z) ≤ torusRootStep acc z :=
            foldl_torusRootStep_le rest _
          _ ≤ (z.re : EReal) := by rw [torusRootStep, if_pos hc]
      · have : ¬ ((z.re : EReal) < acc) := fun hlt => hc ⟨hzr, hlt⟩
        calc rest.foldl torusRootStep (torusRootStep acc z) ≤ torusRootStep acc z :=
            foldl_torusRootStep_le rest _
          _ ≤ (z.re : EReal) := by rw [torusRootStep, if_neg hc]; exact not_lt.mp this
    · exact ih _ z hz2 hzr

theorem foldl_torusRootStep_mem (roots : List ℂ) :
    ∀ acc : EReal, roots.foldl torusRootStep acc = acc ∨
      ∃ z ∈ roots, approx_equal z.im 0 ∧ (z.re : EReal) = roots.foldl torusRootStep acc := by
  induction roots with
  | nil => intro acc; left; rfl
  | cons w rest ih =>
    intro acc
    simp only [List.foldl_cons]
    by_cases hc : approx_equal w.im 0 ∧ (w.re : EReal) < acc
    · rcases ih (torusRootStep acc w) with he | ⟨z, hz, hzr, hze⟩
      · right
        refine ⟨w, List.mem_cons_self w rest, hc.1, ?_⟩
        rw [he, torusRootStep, if_pos hc]
      · exact Or.inr ⟨z, List.mem_cons_of_mem w hz, hzr, hze⟩
    · rcases ih (torusRootStep acc w) with he | ⟨z, hz, hzr, hze⟩
      · left; rw [he, torusRootStep, if_neg hc]
      · exact Or.inr ⟨z, List.mem_cons_of_mem w hz, hzr, hze⟩

theorem foldl_torusRootStep_ne_bot (roots : List ℂ) :
    ∀ acc : EReal, acc ≠ ⊥ → roots.foldl torusRootStep acc ≠ ⊥ := by
  induction roots with
  | nil => intro acc h; exact h
  | cons w rest ih =>
    intro acc h
    simp only [List.foldl_cons]
    refine ih _ ?_
    rw [torusRootStep]
    split_ifs with hc
    · exact fun hb => (EReal.coe_ne_bot w.re) hb
    · exact h

theorem torusMinRoot_ne_bot (roots : List ℂ) : torusMinRoot roots ≠ ⊥ :=
  foldl_torusRootStep_ne_bot roots ⊤ (by simp)

def torusC5 : Torus := ⟨"", 1, 1/2, InversableTransform.id, 0⟩
def rayT : Ray := ⟨⟨1, 0, 0⟩, ⟨0, 0, 1⟩⟩

theorem quarticRootsC5_eq :
    torusC5.quarticRoots rayT = solveQuanticEquation 1 0 (7/2) 0 (-15/16) := by
  simp only [Torus.quarticRoots, torusC5, rayT, Vector3d.squared_length, Vector3d.dot]
  norm_num

theorem minRootC5 :
    torusMinRoot [(⟨1/2, 0⟩ : ℂ), ⟨-(1/2), 0⟩, ⟨0, Real.sqrt (15/4)⟩, ⟨0, -Real.sqrt (15/4)⟩] =
      (((-(1/2) : ℝ)) : EReal) := by
  have hs1 : (1 : ℝ) ≤ Real.sqrt (15/4) := by
    rw [← Real.sqrt_one]
    exact Real.sqrt_le_sqrt (by norm_num)
  have hs : ¬ approx_equal (Real.sqrt (15/4)) 0 := by
    rw [approx_equal, epsApprox]
    push_neg
    rw [sub_zero, abs_of_nonneg (Real.sqrt_nonneg _)]
    calc (1:ℝ) / 10 ^ 15 ≤ 1 := by norm_num
      _ ≤ Real.sqrt (15/4) := hs1
  have hs2 : ¬ approx_equal (-Real.sqrt (15/4)) 0 := by
    rw [approx_equal, epsApprox]
    push_neg
    rw [sub_zero, abs_neg, abs_of_nonneg (Real.sqrt_nonneg _)]
    calc (1:ℝ) / 10 ^ 15 ≤ 1 := by norm_num
      _ ≤ Real.sqrt (15/4) := hs1
  have happ : approx_equal (0 : ℝ) 0 := by
    rw [approx_equal, epsApprox]
    norm_num
  have s1 : torusRootStep ⊤ (⟨1/2, 0⟩ : ℂ) = (((1/2 : ℝ)) : EReal) := by
    rw [torusRootStep, if_pos ⟨happ, EReal.coe_lt_top _⟩]
  have s2 : torusRootStep (((1/2 : ℝ)) : EReal) (⟨-(1/2), 0⟩ : ℂ) = (((-(1/2) : ℝ)) : EReal) := by
    rw [torusRootStep, if_pos ⟨happ, EReal.coe_lt_coe_iff.mpr (by norm_num)⟩]
  have s3 : torusRootStep (((-(1/2) : ℝ)) : EReal) (⟨0, Real.sqrt (15/4)⟩ : ℂ) =
      (((-(1/2) : ℝ)) : EReal) := by
    rw [torusRootStep, if_neg (fun hc => hs hc.1)]
  have s4 : torusRootStep (((-(1/2) : ℝ)) : EReal) (⟨0, -Real.sqrt (15/4)⟩ : ℂ) =
      (((-(1/2) : ℝ)) : EReal) := by
    rw [torusRootStep, if_neg (fun hc => hs2 hc.1)]
  simp only [torusMinRoot, List.foldl_cons, List.foldl_nil, s1, s2, s3, s4]

/-- C5: whenever the torus reports a hit, its distance is the globally
smallest real root of the quartic (smallest real part among roots whose
imaginary part is within 1e-15 of zero), and that root lies inside the
closed interval.  The source never tests the next root: the global
minimum alone is checked against the bounds. -/
theorem C5_global_min_root (tor : Torus) (ray : Ray) (minT maxT : EReal) (h : RayHit)
    (hh : tor.rayIntersect ray minT maxT = some h) :
    ((h.distance : ℝ) : EReal) = torusMinRoot (tor.quarticRoots ray) ∧
    (∃ z ∈ tor.quarticRoots ray, approx_equal z.im 0 ∧ z.re = h.distance) ∧
    (∀ z ∈ tor.quarticRoots ray, approx_equal z.im 0 → h.distance ≤ z.re) ∧
    minT ≤ (h.distance : EReal) ∧ (h.distance : EReal) ≤ maxT := by
  simp only [Torus.rayIntersect] at hh
  split_ifs at hh with h1
  obtain rfl : _ = h := Option.some.inj hh
  push_neg at h1
  obtain ⟨hnt, hge, hle⟩ := h1
  have hnb : torusMinRoot (tor.quarticRoots ray) ≠ ⊥ := torusMinRoot_ne_bot _
  have hcoe : (((torusMinRoot (tor.quarticRoots ray)).toReal : ℝ) : EReal) =
      torusMinRoot (tor.quarticRoots ray) := EReal.coe_toReal hnt hnb
  refine ⟨?_, ?_, ?_, ?_, ?_⟩
  · exact hcoe
  · rcases foldl_torusRootStep_mem (tor.quarticRoots ray) ⊤ with he | ⟨z, hz, hzr, hze⟩
    · exact absurd he hnt
    · refine ⟨z, hz, hzr, ?_⟩
      have : ((z.re : ℝ) : EReal) = ((((torusMinRoot (tor.quarticRoots ray)).toReal : ℝ)) : EReal) := by
        rw [hcoe]; exact hze
      exact EReal.coe_eq_coe_iff.mp this
  · intro z hz hzr
    have hle2 : torusMinRoot (tor.quarticRoots ray) ≤ (z.re : EReal) :=
      foldl_torusRootStep_le_mem _ _ z hz hzr
    rw [← hcoe] at hle2
    exact EReal.coe_le_coe_iff.mp hle2
  · exact le_of_le_of_eq hge hcoe.symm
  · exact le_of_eq_of_le hcoe hle

/-- C5 counterexample: a ray through the torus tube has real roots
±1/2; with bounds `[1e-3, 10]` the root 1/2 qualifies, yet the source
selects the global minimum −1/2, finds it outside the interval, and
reports no hit instead of testing the next root. -/
theorem C5_counterexample :
    Torus.rayIntersect torusC5 rayT (((1:ℝ)/1000 : ℝ) : EReal) ((10 : ℝ) : EReal) = none ∧
    (⟨1/2, 0⟩ : ℂ) ∈ torusC5.quarticRoots rayT ∧ approx_equal ((⟨1/2, 0⟩ : ℂ)).im 0 ∧
      (1:ℝ)/1000 ≤ 1/2 ∧ (1/2 : ℝ) ≤ 10 := by
  have hm : torusMinRoot (torusC5.quarticRoots rayT) = (((-(1/2) : ℝ)) : EReal) := by
    rw [quarticRootsC5_eq, quanticRootsC5, minRootC5]
  refine ⟨?_, ?_, ?_, by norm_num, by norm_num⟩
  · simp only [Torus.rayIntersect, hm]
    rw [if_pos]
    right; left
    exact EReal.coe_lt_coe_iff.mpr (by norm_num)
  · rw [quarticRootsC5_eq, quanticRootsC5]
    simp
  · rw [approx_equal, epsApprox]
    norm_num

/-- C5 witness: the torus theorem applied at a concrete hit — with a
lower bound of −1 the global minimum −1/2 passes the interval check and
the reported distance equals the fold's minimum root. -/
theorem C5_witness :
    ∃ h, Torus.rayIntersect torusC5 rayT (((-1 : ℝ)) : EReal) ((10 : ℝ) : EReal) = some h ∧
      ((h.distance : ℝ) : EReal) = torusMinRoot (torusC5.quarticRoots rayT) := by
  have hm : torusMinRoot (torusC5.quarticRoots rayT) = (((-(1/2) : ℝ)) : EReal) := by
    rw [quarticRootsC5_eq, quanticRootsC5, minRootC5]
  obtain ⟨h, hh⟩ : ∃ h, Torus.rayIntersect torusC5 rayT (((-1 : ℝ)) : EReal)
      ((10 : ℝ) : EReal) = some h := by
    simp only [Torus.rayIntersect, hm]
    rw [if_neg]
    · exact ⟨_, rfl⟩
    · push_neg
      refine ⟨by simp, ?_, ?_⟩
      · exact EReal.coe_le_coe_iff.mpr (show (-1 : ℝ) ≤ -(1/2) by norm_num)
      · exact EReal.coe_le_coe_iff.mpr (show (-(1/2) : ℝ) ≤ 10 by norm_num)
  exact ⟨h, hh, (C5_global_min_root _ _ _ _ _ hh).1⟩


-- ===== C2 definitions =====

/-- The full-interval hits of a shape list: each shape's public `ray_hit`
over the whole query interval, kept in list order. -/
def fullHits (ps : List DynShape) (ray : Ray) (minT maxT : EReal) : List RayHit :=
  ps.filterMap (fun s => s.rayHit ray minT maxT)

/-- The documented `ray_hit` contract of a shape trait object, relative to
a query `(ray, min_t, max_t)`: hits land in the closed interval;
restricting `t_max` filters the same hit by distance; and a hit forces the
slab test to pass for every box containing the shape's box on every
subinterval that still contains the hit. -/
def ShapeContract (s : DynShape) (ray : Ray) (minT maxT : EReal) : Prop :=
  (∀ h, s.rayHit ray minT maxT = some h →
     minT ≤ (h.distance : EReal) ∧ (h.distance : EReal) ≤ maxT) ∧
  (∀ m : EReal, m ≤ maxT →
     s.rayHit ray minT m = (s.rayHit ray minT maxT).bind
       (fun h => if (h.distance : EReal) ≤ m then some h else none)) ∧
  (∀ h, s.rayHit ray minT maxT = some h → ∀ m : EReal,
     (h.distance : EReal) ≤ m → m ≤ maxT →
     ∀ bb : AABB, s.boundingBox.subBox bb → bb.rayHit ray minT m)

/-- The result is a minimum-distance element of the hit list (`none` only
when the list is empty). -/
@[reducible] def IsMinHit (hits : List RayHit) (res : Option RayHit) : Prop :=
  (res = none → hits = []) ∧
  (∀ h, res = some h → h ∈ hits ∧ ∀ h2 ∈ hits, h.distance ≤ h2.distance)

/-- The result is a minimum-distance element among the hits with distance
at most `m` (`none` only when no hit is within `m`). -/
@[reducible] def UpToSpec (hits : List RayHit) (m : EReal) (res : Option RayHit) : Prop :=
  (res = none → ∀ h ∈ hits, ¬ ((h.distance : EReal) ≤ m)) ∧
  (∀ h, res = some h → h ∈ hits ∧ (h.distance : EReal) ≤ m ∧
    ∀ h2 ∈ hits, (h2.distance : EReal) ≤ m → h.distance ≤ h2.distance)

/-- Invariant of the `ShapeCollection::ray_intersect` loop state. -/
@[reducible] def GoodState (hits : List RayHit) (maxT m : EReal) (acc : Option RayHit) : Prop :=
  (acc = none → hits = [] ∧ m = maxT) ∧
  (∀ h, acc = some h → m = (h.distance : EReal) ∧ h ∈ hits ∧
    ∀ h2 ∈ hits, h.distance ≤ h2.distance)

-- ===== C2 lemmas: the linear scan =====

theorem fullHits_bounds {ps : List DynShape} {ray : Ray} {minT maxT : EReal}
    (hC : ∀ s ∈ ps, ShapeContract s ray minT maxT) :
    ∀ h ∈ fullHits ps ray minT maxT,
      minT ≤ (h.distance : EReal) ∧ (h.distance : EReal) ≤ maxT := by
  intro h hm
  obtain ⟨s, hs, hsh⟩ := List.mem_filterMap.mp hm
  exact (hC s hs).1 h hsh

theorem scanGo_spec (ray : Ray) (minT maxT : EReal) :
    ∀ (ss : List DynShape) (hits : List RayHit) (m : EReal) (acc : Option RayHit),
      (∀ s ∈ ss, ShapeContract s ray minT maxT) →
      m ≤ maxT →
      GoodState hits maxT m acc →
      (∀ h ∈ hits, (h.distance : EReal) ≤ maxT) →
      IsMinHit (hits ++ fullHits ss ray minT maxT) (scanGo ray minT ss m acc) := by
  intro ss
  induction ss with
  | nil =>
    intro hits m acc _ _ hgood _
    simp only [fullHits, List.filterMap_nil, List.append_nil, scanGo]
    cases acc with
    | none =>
      obtain ⟨he, -⟩ := hgood.1 rfl
      exact ⟨fun _ => he, fun h hh => by cases hh⟩
    | some h0 =>
      obtain ⟨-, hmem, hmin⟩ := hgood.2 h0 rfl
      refine ⟨fun hn => Option.noConfusion hn, fun h hh => ?_⟩
      obtain rfl : h0 = h := Option.some.inj hh
      exact ⟨hmem, hmin⟩
  | cons s ss ih =>
    intro hits m acc hC hm hgood hbound
    have hCs := hC s (List.mem_cons_self s ss)
    have hCss : ∀ t ∈ ss, ShapeContract t ray minT maxT :=
      fun t ht => hC t (List.mem_cons_of_mem s ht)
    have hquery : s.rayHit ray minT m = (s.rayHit ray minT maxT).bind
        (fun h => if (h.distance : EReal) ≤ m then some h else none) := hCs.2.1 m hm
    simp only [scanGo]
    cases hc : s.rayHit ray minT maxT with
    | none =>
      rw [hc] at hquery
      simp only [Option.bind] at hquery
      rw [hquery]
      have : fullHits (s :: ss) ray minT maxT = fullHits ss ray minT maxT := by
        simp [fullHits, hc]
      rw [this]
      exact ih hits m acc hCss hm hgood hbound
    | some ch =>
      have hchb := hCs.1 ch hc
      have hfh : fullHits (s :: ss) ray minT maxT = ch :: fullHits ss ray minT maxT := by
        simp [fullHits, hc]
      rw [hc] at hquery
      simp only [Option.bind] at hquery
      by_cases hd : (ch.distance : EReal) ≤ m
      · rw [hquery, if_pos hd]
        have hgood2 : GoodState (hits ++ [ch]) maxT ((ch.distance : ℝ) : EReal) (some ch) := by
          refine ⟨fun hn => Option.noConfusion hn, fun h hh => ?_⟩
          obtain rfl : ch = h := Option.some.inj hh
          refine ⟨rfl, List.mem_append_right _ (List.mem_singleton_self _), fun h2 hh2 => ?_⟩
          rcases List.mem_append.mp hh2 with hh2 | hh2
          · cases acc with
            | none =>
              obtain ⟨he, -⟩ := hgood.1 rfl
              rw [he] at hh2; cases hh2
            | some h0 =>
              obtain ⟨hme, -, hmin⟩ := hgood.2 h0 rfl
              have h1 : (ch.distance : EReal) ≤ ((h0.distance : ℝ) : EReal) := hme ▸ hd
              exact le_trans (EReal.coe_le_coe_iff.mp h1) (hmin h2 hh2)
          · rw [List.mem_singleton.mp hh2]
        have hbound2 : ∀ h ∈ hits ++ [ch], (h.distance : EReal) ≤ maxT := by
          intro h hh
          rcases List.mem_append.mp hh with hh | hh
          · exact hbound h hh
          · rw [List.mem_singleton.mp hh]; exact hchb.2
        have := ih (hits ++ [ch]) ((ch.distance : ℝ) : EReal) (some ch) hCss hchb.2 hgood2 hbound2
        rw [hfh]
        rwa [List.append_assoc, List.singleton_append] at this
      · rw [hquery, if_neg hd]
        cases acc with
        | none =>
          obtain ⟨-, rfl⟩ := hgood.1 rfl
          exact absurd hchb.2 hd
        | some h0 =>
          obtain ⟨hme, hmem0, hmin0⟩ := hgood.2 h0 rfl
          have hgood2 : GoodState (hits ++ [ch]) maxT m (some h0) := by
            refine ⟨fun hn => Option.noConfusion hn, fun h hh => ?_⟩
            obtain rfl : h0 = h := Option.some.inj hh
            refine ⟨hme, List.mem_append_left _ hmem0, fun h2 hh2 => ?_⟩
            rcases List.mem_append.mp hh2 with hh2 | hh2
            · exact hmin0 h2 hh2
            · rw [List.mem_singleton.mp hh2]
              have h1 : ¬ ((ch.distance : EReal) ≤ ((h0.distance : ℝ) : EReal)) := hme ▸ hd
              have h2' : ((h0.distance : ℝ) : EReal) ≤ (ch.distance : EReal) :=
                le_of_lt (not_le.mp h1)
              exact EReal.coe_le_coe_iff.mp h2'
          have hbound2 : ∀ h ∈ hits ++ [ch], (h.distance : EReal) ≤ maxT := by
            intro h hh
            rcases List.mem_append.mp hh with hh | hh
            · exact hbound h hh
            · rw [List.mem_singleton.mp hh]; exact hchb.2
          have := ih (hits ++ [ch]) m (some h0) hCss hm hgood2 hbound2
          rw [hfh]
          rwa [List.append_assoc, List.singleton_append] at this

theorem scan_spec (ps : List DynShape) (ray : Ray) (minT maxT : EReal)
    (hC : ∀ s ∈ ps, ShapeContract s ray minT maxT) :
    IsMinHit (fullHits ps ray minT maxT)
      (ShapeCollection.rayIntersect ps ray minT maxT) := by
  have hgood : GoodState [] maxT maxT (none : Option RayHit) :=
    ⟨fun _ => ⟨rfl, rfl⟩, fun h hh => by cases hh⟩
  have := scanGo_spec ray minT maxT ps [] maxT none hC le_rfl hgood (by intro h hh; cases hh)
  simpa [ShapeCollection.rayIntersect] using this

-- ===== C2 lemmas: boxes =====

theorem subBox_refl (b : AABB) : b.subBox b := by
  simp [AABB.subBox]

theorem subBox_trans {a b c : AABB} (h1 : a.subBox b) (h2 : b.subBox c) : a.subBox c := by
  obtain ⟨p1, p2, p3, p4, p5, p6⟩ := h1
  obtain ⟨q1, q2, q3, q4, q5, q6⟩ := h2
  exact ⟨le_trans q1 p1, le_trans q2 p2, le_trans q3 p3,
    le_trans p4 q4, le_trans p5 q5, le_trans p6 q6⟩

theorem subBox_union_left (a b : AABB) : a.subBox (a.unionBox b) := by
  simp only [AABB.unionBox, AABB.subBox, Vector3d.vmin, Vector3d.vmax]
  exact ⟨min_le_left _ _, min_le_left _ _, min_le_left _ _,
    le_max_left _ _, le_max_left _ _, le_max_left _ _⟩

theorem subBox_union_right (a b : AABB) : b.subBox (a.unionBox b) := by
  simp only [AABB.unionBox, AABB.subBox, Vector3d.vmin, Vector3d.vmax]
  exact ⟨min_le_right _ _, min_le_right _ _, min_le_right _ _,
    le_max_right _ _, le_max_right _ _, le_max_right _ _⟩

theorem leaves_box : ∀ (t : BvhShape), t.wf →
    ∀ s ∈ t.leaves, s.boundingBox.subBox t.boundingBox
  | .dyn s0 => by
    intro _ s hs
    rw [BvhShape.leaves, List.mem_singleton] at hs
    subst hs
    exact subBox_refl _
  | .node l (some r) bb => by
    intro hwf s hs
    obtain ⟨hlb, hrb, hlw, hrw⟩ := hwf
    rw [BvhShape.leaves, List.mem_append] at hs
    rcases hs with hs | hs
    · exact subBox_trans (leaves_box l hlw s hs) hlb
    · exact subBox_trans (leaves_box r hrw s hs) hrb
  | .node l none bb => by
    intro hwf s hs
    obtain ⟨hlb, hlw⟩ := hwf
    rw [BvhShape.leaves] at hs
    exact subBox_trans (leaves_box l hlw s hs) hlb

theorem mem_fullHits {ps : List DynShape} {ray : Ray} {minT maxT : EReal} {h : RayHit} :
    h ∈ fullHits ps ray minT maxT ↔ ∃ s ∈ ps, s.rayHit ray minT maxT = some h := by
  simp [fullHits]

-- ===== C2 lemmas: BVH traversal =====

theorem bvh_spec (ray : Ray) (minT maxT : EReal) :
    ∀ (t : BvhShape), t.wf →
      (∀ s ∈ t.leaves, ShapeContract s ray minT maxT) →
      ∀ m : EReal, m ≤ maxT →
        UpToSpec (fullHits t.leaves ray minT maxT) m (t.rayHit ray minT m)
  | .dyn s => by
    intro _ hC m hm
    have hCs := hC s (by rw [BvhShape.leaves]; exact List.mem_singleton_self s)
    have hquery : s.rayHit ray minT m = (s.rayHit ray minT maxT).bind
        (fun h => if (h.distance : EReal) ≤ m then some h else none) := hCs.2.1 m hm
    rw [BvhShape.rayHit, hquery]
    cases hc : s.rayHit ray minT maxT with
    | none =>
      simp only [Option.bind]
      have : fullHits (BvhShape.dyn s).leaves ray minT maxT = [] := by
        simp [fullHits, BvhShape.leaves, hc]
      rw [this]
      refine ⟨fun _ h hh => absurd hh (List.not_mem_nil h), fun h hh => ?_⟩
      cases hh
    | some ch =>
      have : fullHits (BvhShape.dyn s).leaves ray minT maxT = [ch] := by
        simp [fullHits, BvhShape.leaves, hc]
      rw [this]
      simp only [Option.bind]
      by_cases hd : (ch.distance : EReal) ≤ m
      · rw [if_pos hd]
        refine ⟨fun hn => Option.noConfusion hn, fun h hh => ?_⟩
        obtain rfl : ch = h := Option.some.inj hh
        exact ⟨List.mem_singleton_self _, hd, fun h2 hh2 _ => by
          rw [List.mem_singleton.mp hh2]⟩
      · rw [if_neg hd]
        refine ⟨fun _ h hh => ?_, fun h hh => by cases hh⟩
        rw [List.mem_singleton.mp hh]
        exact hd
  | .node l (some rt) bb => by
    intro hwf hC m hm
    obtain ⟨hlb, hrb, hlw, hrw⟩ := hwf
    have hCl : ∀ s ∈ l.leaves, ShapeContract s ray minT maxT := by
      intro s hs
      exact hC s (by rw [BvhShape.leaves, List.mem_append]; exact Or.inl hs)
    have hCr : ∀ s ∈ rt.leaves, ShapeContract s ray minT maxT := by
      intro s hs
      exact hC s (by rw [BvhShape.leaves, List.mem_append]; exact Or.inr hs)
    have hfh : fullHits (BvhShape.node l (some rt) bb).leaves ray minT maxT =
        fullHits l.leaves ray minT maxT ++ fullHits rt.leaves ray minT maxT := by
      simp [fullHits, BvhShape.leaves, List.filterMap_append]
    rw [BvhShape.rayHit, hfh]
    by_cases hslab : bb.rayHit ray minT m
    · rw [if_pos hslab]
      have Ul := bvh_spec ray minT maxT l hlw hCl m hm
      cases hl : l.rayHit ray minT m with
      | some hitl =>
        obtain ⟨hlmem, hld, hlmin⟩ := Ul.2 hitl hl
        have Ur := bvh_spec ray minT maxT rt hrw hCr ((hitl.distance : ℝ) : EReal)
          (le_trans hld hm)
        cases hr : rt.rayHit ray minT ((hitl.distance : ℝ) : EReal) with
        | some hitr =>
          obtain ⟨hrmem, hrd, hrmin⟩ := Ur.2 hitr hr
          simp only [hr, Option.or]
          refine ⟨fun hn => Option.noConfusion hn, fun h hh => ?_⟩
          obtain rfl : hitr = h := Option.some.inj hh
          refine ⟨List.mem_append_right _ hrmem, le_trans hrd hld, fun h2 hh2 hh2d => ?_⟩
          rcases List.mem_append.mp hh2 with hh2 | hh2
          · exact le_trans (EReal.coe_le_coe_iff.mp hrd) (hlmin h2 hh2 hh2d)
          · by_cases hcmp : (h2.distance : EReal) ≤ ((hitl.distance : ℝ) : EReal)
            · exact hrmin h2 hh2 hcmp
            · have h1 : hitl.distance ≤ h2.distance :=
                le_of_lt (EReal.coe_lt_coe_iff.mp (not_le.mp hcmp))
              exact le_trans (EReal.coe_le_coe_iff.mp hrd) h1
        | none =>
          simp only [hr, Option.or]
          refine ⟨fun hn => Option.noConfusion hn, fun h hh => ?_⟩
          obtain rfl : hitl = h := Option.some.inj hh
          refine ⟨List.mem_append_left _ hlmem, hld, fun h2 hh2 hh2d => ?_⟩
          rcases List.mem_append.mp hh2 with hh2 | hh2
          · exact hlmin h2 hh2 hh2d
          · by_cases hcmp : (h2.distance : EReal) ≤ ((hitl.distance : ℝ) : EReal)
            · exact absurd hcmp (Ur.1 hr h2 hh2)
            · exact le_of_lt (EReal.coe_lt_coe_iff.mp (not_le.mp hcmp))
      | none =>
        have Ur := bvh_spec ray minT maxT rt hrw hCr m hm
        refine ⟨fun hn h hh => ?_, fun h hh => ?_⟩
        · rcases List.mem_append.mp hh with hh2 | hh2
          · exact Ul.1 hl h hh2
          · exact Ur.1 hn h hh2
        · obtain ⟨hmem, hd, hmin⟩ := Ur.2 h hh
          refine ⟨List.mem_append_right _ hmem, hd, fun h2 hh2 hh2d => ?_⟩
          rcases List.mem_append.mp hh2 with hh2 | hh2
          · exact absurd hh2d (Ul.1 hl h2 hh2)
          · exact hmin h2 hh2 hh2d
    · rw [if_neg hslab]
      refine ⟨fun _ h hh hhd => ?_, fun h hh => ?_⟩
      · rw [← hfh] at hh
        obtain ⟨s, hs, hsh⟩ := mem_fullHits.mp hh
        have hsbb : s.boundingBox.subBox bb :=
          leaves_box (BvhShape.node l (some rt) bb) ⟨hlb, hrb, hlw, hrw⟩ s hs
        exact hslab ((hC s hs).2.2 h hsh m hhd hm bb hsbb)
      · cases hh
  | .node l none bb => by
    intro hwf hC m hm
    obtain ⟨hlb, hlw⟩ := hwf
    have hCl : ∀ s ∈ l.leaves, ShapeContract s ray minT maxT := by
      intro s hs
      exact hC s (by rw [BvhShape.leaves]; exact hs)
    have hfh : fullHits (BvhShape.node l none bb).leaves ray minT maxT =
        fullHits l.leaves ray minT maxT := by
      simp [fullHits, BvhShape.leaves]
    rw [BvhShape.rayHit, hfh]
    by_cases hslab : bb.rayHit ray minT m
    · rw [if_pos hslab]
      exact bvh_spec ray minT maxT l hlw hCl m hm
    · rw [if_neg hslab]
      refine ⟨fun _ h hh hhd => ?_, fun h hh => ?_⟩
      · obtain ⟨s, hs, hsh⟩ := mem_fullHits.mp hh
        have hs2 : s ∈ (BvhShape.node l none bb).leaves := hs
        have hsbb : s.boundingBox.subBox bb :=
          leaves_box (BvhShape.node l none bb) ⟨hlb, hlw⟩ s hs2
        exact hslab ((hC s hs2).2.2 h hsh m hhd hm bb hsbb)
      · cases hh

-- ===== C2 lemmas: the build =====

theorem bvhBuild_leaves_perm (axisOf : List DynShape → Fin 2) :
    ∀ (n : ℕ) (ps : List DynShape), ps.length ≤ n → ps ≠ [] →
      (bvhBuild axisOf ps).leaves.Perm ps := by
  intro n
  induction n with
  | zero =>
    intro ps hlen hne
    interval_cases h : ps.length
    · exact absurd (List.length_eq_zero.mp h) hne
  | succ n ih =>
    intro ps hlen hne
    have hperm := bvhSort_perm (axisOf ps) ps
    have hlen2 := bvhSort_length (axisOf ps) ps
    rw [bvhBuild]
    split_ifs with h0 h1 h2
    · exact absurd (List.length_eq_zero.mp (hlen2 ▸ h0)) hne
    · obtain ⟨a, ha⟩ := List.length_eq_one.mp h1
      simp only [BvhShape.leaves, ha, List.headI]
      rw [← ha]
      exact hperm
    · obtain ⟨a, b, hab⟩ := List.length_eq_two.mp h2
      have hperm2 : List.Perm [a, b] ps := hab ▸ hperm
      simp only [BvhShape.leaves]
      rw [hab]
      simpa [List.headI, List.getD] using hperm2
    · simp only [BvhShape.leaves]
      have hlen3 : 3 ≤ (bvhSort (axisOf ps) ps).length := by omega
      have htake : ((bvhSort (axisOf ps) ps).take ((bvhSort (axisOf ps) ps).length / 2)).length ≤ n := by
        simp only [List.length_take]
        omega
      have hdrop : ((bvhSort (axisOf ps) ps).drop ((bvhSort (axisOf ps) ps).length / 2)).length ≤ n := by
        simp only [List.length_drop]
        omega
      have htne : (bvhSort (axisOf ps) ps).take ((bvhSort (axisOf ps) ps).length / 2) ≠ [] := by
        intro he
        have := congrArg List.length he
        simp only [List.length_take, List.length_nil] at this
        omega
      have hdne : (bvhSort (axisOf ps) ps).drop ((bvhSort (axisOf ps) ps).length / 2) ≠ [] := by
        intro he
        have := congrArg List.length he
        simp only [List.length_drop, List.length_nil] at this
        omega
      have pl := ih _ htake htne
      have pr := ih _ hdrop hdne
      have hcat := pl.append pr
      rw [List.take_append_drop] at hcat
      exact hcat.trans hperm

theorem bvhBuild_wf (axisOf : List DynShape → Fin 2) :
    ∀ (n : ℕ) (ps : List DynShape), ps.length ≤ n → (bvhBuild axisOf ps).wf := by
  intro n
  induction n with
  | zero =>
    intro ps hlen
    have h0 : ps = [] := List.length_eq_zero.mp (by omega)
    subst h0
    rw [bvhBuild]
    simp [bvhSort, BvhShape.wf]
  | succ n ih =>
    intro ps hlen
    have hlen2 := bvhSort_length (axisOf ps) ps
    rw [bvhBuild]
    split_ifs with h0 h1 h2
    · exact trivial
    · exact ⟨subBox_refl _, trivial⟩
    · exact ⟨subBox_union_left _ _, subBox_union_right _ _, trivial, trivial⟩
    · have htake : ((bvhSort (axisOf ps) ps).take ((bvhSort (axisOf ps) ps).length / 2)).length ≤ n := by
        simp only [List.length_take]
        omega
      have hdrop : ((bvhSort (axisOf ps) ps).drop ((bvhSort (axisOf ps) ps).length / 2)).length ≤ n := by
        simp only [List.length_drop]
        omega
      exact ⟨subBox_union_left _ _, subBox_union_right _ _, ih _ htake, ih _ hdrop⟩

/-- C2: the BVH traversal agrees with the brute-force linear scan on any
non-empty shape list, provided each shape honours the traversal's implicit
contract (`ShapeContract`: hits respect the bounds, tightening `t_max`
only filters by distance, and a hit's containing boxes pass the slab
test) and the minimal distance is attained by a unique hit (two hits that
are both minimal in the full hit list coincide). -/
theorem C2_bvh_equiv_scan (axisOf : List DynShape → Fin 2) (ps : List DynShape)
    (ray : Ray) (minT maxT : EReal) (hne : ps ≠ [])
    (hC : ∀ s ∈ ps, ShapeContract s ray minT maxT)
    (huniq : ∀ h1 ∈ fullHits ps ray minT maxT, ∀ h2 ∈ fullHits ps ray minT maxT,
      (∀ h ∈ fullHits ps ray minT maxT, h1.distance ≤ h.distance) →
      (∀ h ∈ fullHits ps ray minT maxT, h2.distance ≤ h.distance) → h1 = h2) :
    (bvhBuild axisOf ps).rayHit ray minT maxT =
      ShapeCollection.rayIntersect ps ray minT maxT := by
  have hperm : (bvhBuild axisOf ps).leaves.Perm ps :=
    bvhBuild_leaves_perm axisOf ps.length ps le_rfl hne
  have hwf : (bvhBuild axisOf ps).wf := bvhBuild_wf axisOf ps.length ps le_rfl
  have hCl : ∀ s ∈ (bvhBuild axisOf ps).leaves, ShapeContract s ray minT maxT :=
    fun s hs => hC s (hperm.mem_iff.mp hs)
  have hpermH : (fullHits (bvhBuild axisOf ps).leaves ray minT maxT).Perm
      (fullHits ps ray minT maxT) :=
    hperm.filterMap _
  have hB := bvh_spec ray minT maxT (bvhBuild axisOf ps) hwf hCl maxT le_rfl
  have hS := scan_spec ps ray minT maxT hC
  have hbound := fullHits_bounds hC
  cases hscan : ShapeCollection.rayIntersect ps ray minT maxT with
  | none =>
    have hempty : fullHits ps ray minT maxT = [] := hS.1 hscan
    cases hbvh : (bvhBuild axisOf ps).rayHit ray minT maxT with
    | none => rfl
    | some hb =>
      obtain ⟨hbmem, -, -⟩ := hB.2 hb hbvh
      have : hb ∈ fullHits ps ray minT maxT := hpermH.mem_iff.mp hbmem
      rw [hempty] at this
      cases this
  | some hs' =>
    obtain ⟨hmem, hmin⟩ := hS.2 hs' hscan
    cases hbvh : (bvhBuild axisOf ps).rayHit ray minT maxT with
    | none =>
      have hnot := hB.1 hbvh hs' (hpermH.mem_iff.mpr hmem)
      exact absurd (hbound hs' hmem).2 hnot
    | some hb =>
      obtain ⟨hbmem, hble, hbmin⟩ := hB.2 hb hbvh
      have hbmem2 : hb ∈ fullHits ps ray minT maxT := hpermH.mem_iff.mp hbmem
      have hbminFull : ∀ h2 ∈ fullHits ps ray minT maxT, hb.distance ≤ h2.distance :=
        fun h2 hm2 => hbmin h2 (hpermH.mem_iff.mpr hm2) (hbound h2 hm2).2
      have : hb = hs' := huniq hb hbmem2 hs' hmem hbminFull hmin
      rw [this]

/-- Small IEEE-division facts used to evaluate the slab test on symbolic
boxes: a negative numerator over zero is `-infinity`. -/
theorem fdiv_neg_zero {n : ℝ} (hn : n < 0) : fdiv n 0 = some ⊥ := by
  rw [fdiv, if_pos rfl, if_neg hn.ne, if_pos hn]

/-- A positive numerator over zero is `+infinity`. -/
theorem fdiv_pos_zero {n : ℝ} (hn : 0 < n) : fdiv n 0 = some ⊤ := by
  rw [fdiv, if_pos rfl, if_neg hn.ne', if_neg (not_lt.mpr hn.le)]

/-- Division by one is the numerator. -/
theorem fdiv_one (n : ℝ) : fdiv n 1 = some ((n : ℝ) : EReal) := by
  rw [fdiv, if_neg one_ne_zero]
  norm_num

/-- Every box containing the unit box passes the slab test for the ray
from (0,0,-5) along +z on any interval of the form `[1, m]` with
`4 ≤ m`: the transverse axes divide by zero into `(-infinity, +infinity)`
and the z axis brackets `[min_z+5, max_z+5] ⊇ [4, 6]`. -/
theorem slab_superbox (bb : AABB) (hsub : AABB.subBox ⟨⟨-1, -1, -1⟩, ⟨1, 1, 1⟩⟩ bb)
    (m : EReal) (h4 : ((4 : ℝ) : EReal) ≤ m) :
    bb.rayHit rayC4 ((1 : ℝ) : EReal) m := by
  obtain ⟨hx1, hy1, hz1, hx2, hy2, hz2⟩ := hsub
  simp only [AABB.rayHit, rayC4]
  rw [show bb.min_p.x - (0 : ℝ) = bb.min_p.x by ring,
      show bb.min_p.y - (0 : ℝ) = bb.min_p.y by ring,
      show bb.max_p.x - (0 : ℝ) = bb.max_p.x by ring,
      show bb.max_p.y - (0 : ℝ) = bb.max_p.y by ring]
  rw [fdiv_neg_zero (show bb.min_p.x < 0 by simp at hx1; linarith),
      fdiv_neg_zero (show bb.min_p.y < 0 by simp at hy1; linarith),
      fdiv_pos_zero (show (0 : ℝ) < bb.max_p.x by simp at hx2; linarith),
      fdiv_pos_zero (show (0 : ℝ) < bb.max_p.y by simp at hy2; linarith),
      fdiv_one, fdiv_one]
  simp only [fmin, fmax, fle]
  have hzl : bb.min_p.z - (-5 : ℝ) ≤ 4 := by simp at hz1; linarith
  have hzu : (4 : ℝ) ≤ bb.max_p.z - (-5 : ℝ) := by simp at hz2; linarith
  have e1 : (⊥ : EReal) ⊓ ⊤ = ⊥ := min_eq_left bot_le
  have e2 : (⊥ : EReal) ⊔ ⊤ = ⊤ := max_eq_right bot_le
  have e3 : ∀ a : EReal, ⊥ ⊔ a = a := fun a => max_eq_right bot_le
  have e4 : ∀ a : EReal, ⊤ ⊓ a = a := fun a => min_eq_right le_top
  rw [e1, e2, e3, e3, e4, e4]
  have hmid1 : ((bb.min_p.z - -5 : ℝ) : EReal) ⊓ ((bb.max_p.z - -5 : ℝ) : EReal) ⊔
      ((1 : ℝ) : EReal) ≤ ((4 : ℝ) : EReal) :=
    max_le ((min_le_left _ _).trans (EReal.coe_le_coe_iff.mpr hzl))
      (EReal.coe_le_coe_iff.mpr (by norm_num))
  have hmid2 : ((4 : ℝ) : EReal) ≤
      (((bb.min_p.z - -5 : ℝ) : EReal) ⊔ ((bb.max_p.z - -5 : ℝ) : EReal)) ⊓ m :=
    le_min ((EReal.coe_le_coe_iff.mpr hzu).trans (le_max_right _ _)) h4
  exact le_trans hmid1 hmid2

/-- A trait-object shape reporting a fixed hit at distance `d` whenever
`d` is within the query's upper bound, with the unit box as bounding box:
`dyn Shape` admits such implementations, and for `4 ≤ d` the shape meets
the traversal's contract non-vacuously. -/
def boxShapeHit (d : ℝ) : DynShape :=
  ⟨fun _ _ m => if ((d : ℝ) : EReal) ≤ m then
      some (RayHit.new ⟨0, 0, d - 5⟩ ⟨0, 0, -1⟩ d 0 rayC4 0 0) else none,
   ⟨⟨-1, -1, -1⟩, ⟨1, 1, 1⟩⟩⟩

theorem boxShapeHit_contract (d : ℝ) (hd1 : (1 : ℝ) ≤ d) (hd4 : (4 : ℝ) ≤ d)
    (hd10 : d ≤ 10) :
    ShapeContract (boxShapeHit d) rayC4 ((1 : ℝ) : EReal) ((10 : ℝ) : EReal) := by
  have hdm : ((d : ℝ) : EReal) ≤ ((10 : ℝ) : EReal) := EReal.coe_le_coe_iff.mpr hd10
  refine ⟨?_, ?_, ?_⟩
  · intro h hh
    simp only [boxShapeHit, if_pos hdm, Option.some.injEq] at hh
    subst hh
    exact ⟨EReal.coe_le_coe_iff.mpr hd1, hdm⟩
  · intro m hm
    simp only [boxShapeHit, RayHit.new, if_pos hdm, Option.some_bind]
  · intro h hh m h4m hm10 bb hsub
    simp only [boxShapeHit, if_pos hdm, Option.some.injEq] at hh
    subst hh
    have hdm3 : ((d : ℝ) : EReal) ≤ m := h4m
    exact slab_superbox bb hsub m (le_trans (EReal.coe_le_coe_iff.mpr hd4) hdm3)

/-- C2 witness: the equivalence theorem applied to a concrete two-shape
list whose shapes really hit (at distances 4 and 7) — the contract
hypotheses are established non-vacuously, the scan returns the distance-4
hit, and the BVH result coincides with it. -/
theorem C2_contract_witness :
    ([boxShapeHit 4, boxShapeHit 7] ≠ ([] : List DynShape)) ∧
    (∀ s ∈ [boxShapeHit 4, boxShapeHit 7],
      ShapeContract s rayC4 ((1 : ℝ) : EReal) ((10 : ℝ) : EReal)) ∧
    (∃ h, ShapeCollection.rayIntersect [boxShapeHit 4, boxShapeHit 7] rayC4
        ((1 : ℝ) : EReal) ((10 : ℝ) : EReal) = some h ∧ h.distance = 4) ∧
    (bvhBuild (fun _ => 0) [boxShapeHit 4, boxShapeHit 7]).rayHit rayC4
        ((1 : ℝ) : EReal) ((10 : ℝ) : EReal) =
      ShapeCollection.rayIntersect [boxShapeHit 4, boxShapeHit 7] rayC4
        ((1 : ℝ) : EReal) ((10 : ℝ) : EReal) := by
  have h410 : ((4 : ℝ) : EReal) ≤ ((10 : ℝ) : EReal) := EReal.coe_le_coe_iff.mpr (by norm_num)
  have h710 : ((7 : ℝ) : EReal) ≤ ((10 : ℝ) : EReal) := EReal.coe_le_coe_iff.mpr (by norm_num)
  have h74 : ¬ ((7 : ℝ) : EReal) ≤ ((4 : ℝ) : EReal) := by
    rw [EReal.coe_le_coe_iff]
    norm_num
  have hcontract : ∀ s ∈ [boxShapeHit 4, boxShapeHit 7],
      ShapeContract s rayC4 ((1 : ℝ) : EReal) ((10 : ℝ) : EReal) := by
    intro s hs
    rcases List.mem_pair.mp hs with rfl | rfl
    · exact boxShapeHit_contract 4 (by norm_num) (by norm_num) (by norm_num)
    · exact boxShapeHit_contract 7 (by norm_num) (by norm_num) (by norm_num)
  have hfull : fullHits [boxShapeHit 4, boxShapeHit 7] rayC4
      ((1 : ℝ) : EReal) ((10 : ℝ) : EReal) =
      [RayHit.new ⟨0, 0, (4 : ℝ) - 5⟩ ⟨0, 0, -1⟩ 4 0 rayC4 0 0,
       RayHit.new ⟨0, 0, (7 : ℝ) - 5⟩ ⟨0, 0, -1⟩ 7 0 rayC4 0 0] := by
    simp only [fullHits, List.filterMap, boxShapeHit, if_pos h410, if_pos h710]
  have hscan : ShapeCollection.rayIntersect [boxShapeHit 4, boxShapeHit 7] rayC4
      ((1 : ℝ) : EReal) ((10 : ℝ) : EReal) =
      some (RayHit.new ⟨0, 0, (4 : ℝ) - 5⟩ ⟨0, 0, -1⟩ 4 0 rayC4 0 0) := by
    simp only [ShapeCollection.rayIntersect, scanGo, boxShapeHit, RayHit.new,
      if_pos h410, if_neg h74]
  refine ⟨by simp, hcontract, ⟨_, hscan, rfl⟩, ?_⟩
  apply C2_bvh_equiv_scan
  · simp
  · exact hcontract
  · intro h1 hm1 h2 hm2 hmin1 hmin2
    rw [hfull] at hm1 hm2 hmin1 hmin2
    have hd47 : ¬ ((7 : ℝ) ≤ (4 : ℝ)) := by norm_num
    have hge1 : h1 = RayHit.new ⟨0, 0, (4 : ℝ) - 5⟩ ⟨0, 0, -1⟩ 4 0 rayC4 0 0 := by
      rcases List.mem_pair.mp hm1 with rfl | rfl
      · rfl
      · exact absurd (hmin1 _ (List.mem_cons_self _ _)) (by simp [RayHit.new]; norm_num)
    have hge2 : h2 = RayHit.new ⟨0, 0, (4 : ℝ) - 5⟩ ⟨0, 0, -1⟩ 4 0 rayC4 0 0 := by
      rcases List.mem_pair.mp hm2 with rfl | rfl
      · rfl
      · exact absurd (hmin2 _ (List.mem_cons_self _ _)) (by simp [RayHit.new]; norm_num)
    rw [hge1, hge2]


def Sphere.getBoundingBox (s : Sphere) : AABB :=
  (AABB.mk ⟨-1, -1, -1⟩ ⟨1, 1, 1⟩).transform s.transform.direct

def sphDyn : DynShape := ⟨unitSphere.rayHit, unitSphere.getBoundingBox⟩


theorem emin_top (a : EReal) : min ⊤ a = a := min_eq_right le_top

theorem emax_bot (a : EReal) : max ⊥ a = a := max_eq_right bot_le

theorem emin_coe (a b : ℝ) : min ((a : ℝ) : EReal) ((b : ℝ) : EReal) = ((min a b : ℝ) : EReal) := by
  rcases le_total a b with h | h
  · rw [min_eq_left (EReal.coe_le_coe_iff.mpr h), min_eq_left h]
  · rw [min_eq_right (EReal.coe_le_coe_iff.mpr h), min_eq_right h]

theorem emax_coe (a b : ℝ) : max ((a : ℝ) : EReal) ((b : ℝ) : EReal) = ((max a b : ℝ) : EReal) := by
  rcases le_total a b with h | h
  · rw [max_eq_right (EReal.coe_le_coe_iff.mpr h), max_eq_right h]
  · rw [max_eq_left (EReal.coe_le_coe_iff.mpr h), max_eq_left h]

theorem sphDyn_box : sphDyn.boundingBox = ⟨⟨-1, -1, -1⟩, ⟨1, 1, 1⟩⟩ := by
  simp only [sphDyn, Sphere.getBoundingBox, unitSphere, InversableTransform.id,
    AABB.transform, AABB.corners, Transform.id, Transform.transformPoint,
    List.map, List.foldl, emin_top, emax_bot, emin_coe, emax_coe, EReal.toReal_coe]
  norm_num [min_def, max_def]

theorem sphDyn_slab_false (minT : EReal) :
    ¬ AABB.rayHit ⟨⟨-1, -1, -1⟩, ⟨1, 1, 1⟩⟩ rayTangent minT ⊤ := by
  simp only [AABB.rayHit, rayTangent]
  norm_num [fdiv]
  simp only [fmin, fmax, fle]
  intro hcontra
  have h46 : ((4 : ℝ) : EReal) ⊓ ((6 : ℝ) : EReal) ≤ ⊥ :=
    ((le_sup_right.trans le_sup_left).trans hcontra).trans
      (inf_le_left.trans (inf_le_left.trans inf_le_left))
  have h4le : ((4 : ℝ) : EReal) ≤ ((6 : ℝ) : EReal) := EReal.coe_le_coe_iff.mpr (by norm_num)
  rw [inf_eq_left.mpr h4le] at h46
  exact absurd (le_bot_iff.mp h46) (EReal.coe_ne_bot 4)

/-- C2 counterexample: a tangent ray running inside the face of the unit
sphere's bounding box.  IEEE slab arithmetic (`0/0 = NaN`, `f64::max`
ignoring NaN, the final `<=` false on NaN) makes the BVH prune the node
and return no hit, while the linear scan reports the tangent hit at
distance 5. -/
theorem C2_counterexample :
    (bvhBuild (fun _ => 0) [sphDyn]).rayHit rayTangent (((1 : ℝ) / 1000 : ℝ) : EReal) ⊤ = none ∧
    ∃ h, ShapeCollection.rayIntersect [sphDyn] rayTangent (((1 : ℝ) / 1000 : ℝ) : EReal) ⊤ =
        some h ∧ h.distance = 5 := by
  constructor
  · have hsort : bvhSort 0 [sphDyn] = [sphDyn] :=
      List.perm_singleton.mp (bvhSort_perm 0 [sphDyn])
    have hcond : ¬ AABB.rayHit sphDyn.boundingBox rayTangent (((1 : ℝ) / 1000 : ℝ) : EReal) ⊤ := by
      rw [sphDyn_box]
      exact sphDyn_slab_false _
    rw [bvhBuild]
    norm_num [hsort, List.headI]
    simp only [BvhShape.rayHit]
    rw [if_neg hcond]
  · obtain ⟨h, hh, hd⟩ : ∃ h, sphDyn.rayHit rayTangent (((1 : ℝ) / 1000 : ℝ) : EReal) ⊤ =
        some h ∧ h.distance = 5 := by
      simp only [sphDyn, Sphere.rayHit, rayHitTransformed, unitSphere, InversableTransform.id,
        InversableTransform.inverseTransformRay, Transform.id, Transform.transformPoint,
        Transform.transformVector, Transform.transformNormal, rayTangent, Sphere.rayIntersect,
        Vector3d.dot, Vector3d.add, Vector3d.smul, Vector3d.neg, RayHit.new, RayHit.setNormal,
        Vector3d.normalize, Vector3d.divScalar, Vector3d.length, Vector3d.squared_length]
      norm_num [Real.sqrt_one]
    refine ⟨h, ?_, hd⟩
    simp only [ShapeCollection.rayIntersect, scanGo, hh]


-- ============ C3 ============

/-- C3: what `ray_color` actually returns at depth 0 — black only when
the ray hits something; on a miss the sky gradient is returned at every
depth, including 0. -/
theorem C3_depth_zero (rnd : ℕ → Vector3d) (w : World) (ray : Ray) :
    rayColor rnd w ray 0 = (w.closestHit ray).elim (skyGradient ray) (fun _ => ⟨0, 0, 0⟩) := by
  cases h : w.closestHit ray <;> simp [rayColor, h]

/-- C3 counterexample: in an empty world at depth 0, the upward ray
yields the sky-gradient colour, not black. -/
theorem C3_counterexample :
    rayColor (fun _ => ⟨0, 0, 0⟩) ⟨[]⟩ ⟨⟨0, 0, 0⟩, ⟨0, 1, 0⟩⟩ 0 ≠ ⟨0, 0, 0⟩ := by
  simp [rayColor, World.closestHit, skyGradient, Vector3d.normalize, Vector3d.divScalar,
    Vector3d.length, Vector3d.squared_length, Vector3d.dot, Vector3d.smul, Vector3d.add,
    Real.sqrt_one]

-- ============ C6 ============

theorem turbGo_eq (P : Perlin) (p : Vector3d) (n : ℕ) : ∀ (tp : Vector3d) (w : ℝ),
    P.turbGo p tp w n = ∑ i ∈ Finset.range n, w * (0.5 : ℝ) ^ i * P.noise p := by
  induction n with
  | zero => intro tp w; simp [Perlin.turbGo]
  | succ n ih =>
    intro tp w
    rw [Perlin.turbGo, ih, Finset.sum_range_succ']
    rw [add_comm]
    congr 1
    · exact Finset.sum_congr rfl (fun i _ => by ring)
    · ring

/-- C6: `Perlin::turb` computes the absolute value of the sum of
`0.5^i * noise(p)` — the octave point is never actually doubled (the
doubled `temp_p` is dead) and the absolute value is applied once to the
whole sum, not per octave. -/
theorem C6_turb_formula (P : Perlin) (p : Vector3d) (n : ℕ) :
    P.turb p n = |∑ i ∈ Finset.range n, (0.5 : ℝ) ^ i * P.noise p| := by
  rw [Perlin.turb, turbGo_eq]
  congr 1
  exact Finset.sum_congr rfl (fun i _ => by ring)

def perlinConst : Perlin :=
  ⟨fun _ => 0, fun _ => 0, fun _ => 0, fun _ => 0, fun _ => ⟨1, 0, 0⟩, cartesianCorners⟩

theorem noise_quarter : perlinConst.noise ⟨1/4, 0, 0⟩ = 3/32 := by
  simp [Perlin.noise, perlinConst, cartesianCorners, Vector3d.dot]
  norm_num [Int.fract]

theorem noise_half : perlinConst.noise ⟨1/2, 0, 0⟩ = 0 := by
  simp [Perlin.noise, perlinConst, cartesianCorners, Vector3d.dot]
  norm_num [Int.fract]

/-- C6 counterexample: a concrete Perlin table and point where the
source's turbulence (9/64) differs from the spec's per-octave formula
with doubled sample points (3/32). -/
theorem C6_counterexample :
    perlinConst.turb ⟨1/4, 0, 0⟩ 2 ≠ specTurb perlinConst ⟨1/4, 0, 0⟩ 2 := by
  have h1 : perlinConst.turb ⟨1/4, 0, 0⟩ 2 = 9/64 := by
    rw [Perlin.turb, turbGo_eq]
    rw [Finset.sum_range_succ, Finset.sum_range_one, noise_quarter]
    norm_num
  have h2 : specTurb perlinConst ⟨1/4, 0, 0⟩ 2 = 3/32 := by
    rw [specTurb, Finset.sum_range_succ, Finset.sum_range_one]
    have e0 : (Vector3d.mk (1/4) 0 0).smul ((2:ℝ) ^ (0:ℕ)) = ⟨1/4, 0, 0⟩ := by
      simp [Vector3d.smul]
    have e1 : (Vector3d.mk (1/4) 0 0).smul ((2:ℝ) ^ (1:ℕ)) = ⟨1/2, 0, 0⟩ := by
      simp [Vector3d.smul]; norm_num
    rw [e0, e1, noise_quarter, noise_half]
    norm_num
  rw [h1, h2]
  norm_num

-- ============ C7 ============

/-- C7: the orbit-control `lookat` places the camera at
`(object.x, object.z, object.y)` plus the spherical offset — the target's
y and z components are swapped in the position term — and then
re-orthonormalizes direction, right and up. -/
theorem C7_orbit_lookat (oc : OrbitControl) (cam : Camera) :
    (oc.lookat cam).position =
      (Vector3d.mk oc.object.x oc.object.z oc.object.y).add
        ((Vector3d.mk (Real.sin oc.theta * Real.cos oc.phi) (Real.cos oc.theta)
          (Real.sin oc.theta * Real.sin oc.phi)).smul oc.distance) ∧
    (oc.lookat cam).direction = (oc.object.sub (oc.lookat cam).position).normalize ∧
    (oc.lookat cam).up = ((oc.lookat cam).rigth.cross (oc.lookat cam).direction).normalize ∧
    (oc.lookat cam).rigth = ((oc.object.sub (oc.lookat cam).position).normalize.cross
        (((cam.direction.cross ⟨0, 1, 0⟩).normalize.cross cam.direction).normalize)).normalize := by
  refine ⟨?_, ?_, ?_, ?_⟩ <;>
    simp [OrbitControl.lookat, Camera.setUp, Camera.setDirection, Camera.setPosition,
      Vector3d.add, Vector3d.smul, Vector3d.sub] <;> ring_nf <;> simp

/-- C7 counterexample: with θ = φ = 0, distance 1 and target (0,1,2),
the computed camera position differs from `target + offset` as the claim
states it. -/
theorem C7_counterexample :
    (OrbitControl.lookat ⟨0, 0, ⟨0, 1, 2⟩, 1⟩
        ⟨⟨0, 0, 0⟩, ⟨0, 0, -1⟩, ⟨0, 1, 0⟩, 1, 1, ⟨1, 0, 0⟩⟩).position ≠
      (Vector3d.mk 0 1 2).add
        ((Vector3d.mk (Real.sin 0 * Real.cos 0) (Real.cos 0)
          (Real.sin 0 * Real.sin 0)).smul 1) := by
  simp [OrbitControl.lookat, Camera.setUp, Camera.setDirection, Camera.setPosition,
    Vector3d.add, Vector3d.smul]

-- ============ C8 ============

def img2x2 : RtImage := ⟨2, 2, fun _ _ _ => 0⟩

/-- C8: `ImageTexture::value` never clamps the pixel coordinates after
scaling, so `u = 1` maps to `x = width`, an out-of-bounds column for
`get_pixel` — modelled as `none` where the claim requires a colour. -/
theorem C8_u_one_panics : ImageTexture.value img2x2 1 (1/2) = none := by
  simp [ImageTexture.value, img2x2, fclamp, RtImage.getPixel]
  norm_num

-- ============ C10 ============

def badDraws : ℕ → Vector3d := fun _ => ⟨1, 1, 1⟩

/-- C10 counterexample: the constant stream of (1,1,1) — all draws in
the legal `[-1, 1]` range — is never accepted, so the loop has no
accepted draw to return and the source spins forever. -/
theorem C10_counterexample :
    (∀ n, vecInRange (badDraws n) (-1) 1) ∧
      ¬ ∃ n, (badDraws n).squared_length ≤ 1 := by
  constructor
  · intro n
    simp [badDraws, vecInRange]
  · rintro ⟨n, hn⟩
    simp [badDraws, Vector3d.squared_length, Vector3d.dot] at hn
    norm_num at hn

/-- C10: the rejection-sampling loop of `random_in_unit_sphere`
terminates exactly on streams that contain an accepted draw, returning the
first draw with squared length at most 1. -/
theorem C10_loop_first_accept (draws : ℕ → Vector3d)
    (h : ∃ n, (draws n).squared_length ≤ 1) :
    (randomInUnitSphere draws h).squared_length ≤ 1 ∧
    ∃ n, randomInUnitSphere draws h = draws n ∧
      ∀ m, m < n → ¬ ((draws m).squared_length ≤ 1) := by
  exact ⟨Nat.find_spec h, Nat.find h, rfl, fun m hm => Nat.find_min h hm⟩

def zeroDraws : ℕ → Vector3d := fun _ => ⟨0, 0, 0⟩

theorem zeroDraws_accept : ∃ n, (zeroDraws n).squared_length ≤ 1 :=
  ⟨0, by simp [zeroDraws, Vector3d.squared_length, Vector3d.dot]⟩

/-- C10 witness: the loop theorem applied to the constant zero stream,
whose first draw is accepted. -/
theorem C10_witness :
    (randomInUnitSphere zeroDraws zeroDraws_accept).squared_length ≤ 1 :=
  (C10_loop_first_accept zeroDraws zeroDraws_accept).1

-- ============ C4 / C9 sphere evaluations ============



theorem sphereC4_eval :
    ∃ h, unitSphere.rayHit rayC4 (((1:ℝ)/1000 : ℝ) : EReal) ⊤ = some h ∧
      h.distance = 4 ∧ h.point = ⟨0, 0, -1⟩ ∧ h.normal = ⟨0, 0, -1⟩ ∧ h.is_front_face := by
  simp only [Sphere.rayHit, rayHitTransformed, unitSphere, InversableTransform.id,
    InversableTransform.inverseTransformRay, Transform.id, Transform.transformPoint,
    Transform.transformVector, Transform.transformNormal, rayC4, Sphere.rayIntersect,
    Vector3d.dot, Vector3d.add, Vector3d.smul, Vector3d.neg, RayHit.new, RayHit.setNormal,
    Vector3d.normalize, Vector3d.divScalar, Vector3d.length, Vector3d.squared_length]
  norm_num [Real.sqrt_one]

/-- C4: the unit sphere at the origin, queried through the public
`ray_hit` with the ray from (0,0,-5) along +z and bounds `[1e-3, ∞)`,
reports distance 4, point (0,0,-1), normal (0,0,-1) and a front face. -/
theorem C4_single_sphere_front_hit :
    ∃ h, unitSphere.rayHit rayC4 (((1:ℝ)/1000 : ℝ) : EReal) ⊤ = some h ∧
      h.distance = 4 ∧ h.point = ⟨0, 0, -1⟩ ∧ h.normal = ⟨0, 0, -1⟩ ∧ h.is_front_face :=
  sphereC4_eval

-- ============ C9 ============

/-- C9: every hit produced by the transformed-shape wrapper has its
front-face flag derived from the outward normal's dot with the ray, but
the stored normal is flipped towards the ray when back-facing — it is not
always the outward normal. -/
theorem C9_wrapper (tr : InversableTransform)
    (intersect : Ray → EReal → EReal → Option RayHit)
    (ray : Ray) (minT maxT : EReal) (h : RayHit)
    (hh : rayHitTransformed (some tr) intersect ray minT maxT = some h) :
    ∃ ret, intersect (tr.inverseTransformRay ray) minT maxT = some ret ∧
      (h.is_front_face ↔ (tr.inverse.transformNormal ret.normal).dot ray.direction < 0) ∧
      h.normal = (if (tr.inverse.transformNormal ret.normal).dot ray.direction < 0
        then tr.inverse.transformNormal ret.normal
        else (tr.inverse.transformNormal ret.normal).neg).normalize := by
  cases e : intersect (tr.inverseTransformRay ray) minT maxT with
  | none => simp only [rayHitTransformed, e] at hh; cases hh
  | some ret =>
    simp only [rayHitTransformed, e, Option.some.injEq] at hh
    subst hh
    exact ⟨ret, rfl, Iff.rfl, rfl⟩

/-- C9 witness: the wrapper theorem applied to the unit sphere's
front-face hit of C4's configuration. -/
theorem C9_wrapper_witness :
    ∃ h, unitSphere.rayHit rayC4 (((1:ℝ)/1000 : ℝ) : EReal) ⊤ = some h ∧
      ∃ ret, unitSphere.rayIntersect (InversableTransform.id.inverseTransformRay rayC4)
          (((1:ℝ)/1000 : ℝ) : EReal) ⊤ = some ret ∧
        (h.is_front_face ↔
          (InversableTransform.id.inverse.transformNormal ret.normal).dot rayC4.direction < 0) := by
  obtain ⟨h, hh, -, -, -, -⟩ := sphereC4_eval
  have hh2 : rayHitTransformed (some InversableTransform.id) unitSphere.rayIntersect rayC4
      (((1:ℝ)/1000 : ℝ) : EReal) ⊤ = some h := hh
  obtain ⟨ret, hr, hiff, -⟩ := C9_wrapper _ _ _ _ _ _ hh2
  exact ⟨h, hh, ret, hr, hiff⟩

def rayInside : Ray := ⟨⟨0, 0, 0⟩, ⟨0, 0, 1⟩⟩

/-- C9 counterexample: a ray started inside the unit sphere exits at
(0,0,1); the stored normal is the flipped (0,0,-1), facing the ray
(negative dot), with the front-face flag false — the outward normal is
not preserved. -/
theorem C9_counterexample :
    ∃ h, unitSphere.rayHit rayInside (((1:ℝ)/2 : ℝ) : EReal) ((10 : ℝ) : EReal) = some h ∧
      h.point = ⟨0, 0, 1⟩ ∧ h.normal = ⟨0, 0, -1⟩ ∧
      h.normal.dot rayInside.direction < 0 ∧ ¬ h.is_front_face := by
  simp only [Sphere.rayHit, rayHitTransformed, unitSphere, InversableTransform.id,
    InversableTransform.inverseTransformRay, Transform.id, Transform.transformPoint,
    Transform.transformVector, Transform.transformNormal, rayInside, Sphere.rayIntersect,
    Vector3d.dot, Vector3d.add, Vector3d.smul, Vector3d.neg, RayHit.new, RayHit.setNormal,
    Vector3d.normalize, Vector3d.divScalar, Vector3d.length, Vector3d.squared_length]
  norm_num [Real.sqrt_one]
  rw [show ((-1 : EReal)) = (((-1 : ℝ)) : EReal) from
        (by rw [EReal.coe_neg, EReal.coe_one] : (((-1 : ℝ)) : EReal) = -1).symm,
      show ((1 : EReal)) = (((1 : ℝ)) : EReal) from EReal.coe_one.symm]
  simp only [EReal.coe_lt_coe_iff]
  norm_num

